import Mathlib

set_option maxRecDepth 100000
set_option maxHeartbeats 2000000

/-!
# A verification model of the nix-ninja core

This file is a shallow embedding, in Lean 4, of the core data model and
algorithms of the nix-ninja build orchestrator:

* `store_path.rs` — validated Nix store paths (`StorePath`);
* `placeholder.rs` — the placeholder algebra (standard, content-addressed and
  dynamic output placeholders over SHA-256 and nix-base32);
* `derived_path.rs` — opaque vs built derived paths;
* `derived_file.rs` — the `<input>:<source>` wire encoding of derived files;
* `derivation.rs` — the derivation record, its builder operations and its
  JSON serialization;
* `gcc_depfile_parser.rs` — normalization of a compiler command line into a
  dependency-only command;
* `c_include_parser.rs` — the breadth-first transitive include scan;
* `build.rs` — the scheduler's `want_file` walk with cycle detection.

Modelling conventions:

* Rust `String`/`str` values are modelled as `List Char` (Unicode scalar
  values); Rust's byte-based `len()` and byte slicing are modelled exactly via
  an explicit UTF-8 encoder, so byte/character distinctions of the source are
  preserved.  Byte slicing that would panic in Rust (slicing off a UTF-8
  boundary, or out of range) is modelled as `Option.none`.
* `HashMap`/`HashSet` fields are modelled as association lists/lists; the list
  order stands for the map's (unspecified) iteration order.  Fallible Rust
  functions returning `Result`/`anyhow::Result` are modelled with
  `Option`/`Except`.
* The external crates the sources call are modelled by their documented
  behaviour: `sha2::Sha256` is FIPS 180-4 SHA-256 (implemented below and
  checked against the repository's own test vectors), `nix_base32` is Nix's
  base-32 rendering, `serde_json` is the documented JSON serialization of the
  annotated structs, and the per-file include resolution of `include_graph`
  is an abstract `scan` function parameter.
* Recursive algorithms whose termination depends on runtime data
  (`want_file`, the include BFS) take an explicit fuel parameter; running out
  of fuel is a distinguished outcome, distinct from every outcome the Rust
  code can produce.
-/

namespace NixNinja

/-! ## Bytes and UTF-8 strings -/

/-- UTF-8 encoding of a single Unicode scalar value, as byte values. -/
def encChar (c : Char) : List Nat :=
  let n := c.toNat
  if n < 0x80 then [n]
  else if n < 0x800 then [0xC0 + n / 64, 0x80 + n % 64]
  else if n < 0x10000 then [0xE0 + n / 4096, 0x80 + (n / 64) % 64, 0x80 + n % 64]
  else [0xF0 + n / 262144, 0x80 + (n / 4096) % 64, 0x80 + (n / 64) % 64, 0x80 + n % 64]

/-- UTF-8 encoding of a string (list of scalar values) as a byte list. -/
def utf8Bytes (s : List Char) : List Nat := s.flatMap encChar

/-- Number of UTF-8 bytes of a single character (`char::len_utf8`). -/
def charSize (c : Char) : Nat := (encChar c).length

/-- Rust `str::len`: the UTF-8 byte length of a string. -/
def utf8Len (s : List Char) : Nat := (utf8Bytes s).length

/-- Rust byte slicing `&s[0..n]` on a UTF-8 string, as characters: `none` when
`n` is past the end or not a character boundary (where Rust would panic). -/
def byteTake : Nat → List Char → Option (List Char)
  | 0, _ => some []
  | _ + 1, [] => none
  | n + 1, c :: cs =>
    if charSize c ≤ n + 1 then (byteTake (n + 1 - charSize c) cs).map (c :: ·) else none

/-- Rust byte slicing `&s[n..]` on a UTF-8 string, as characters: `none` when
`n` is past the end or not a character boundary (where Rust would panic). -/
def byteDrop : Nat → List Char → Option (List Char)
  | 0, l => some l
  | _ + 1, [] => none
  | n + 1, c :: cs =>
    if charSize c ≤ n + 1 then byteDrop (n + 1 - charSize c) cs else none

/-- `str::split(sep)` collected into a vector (always at least one part). -/
def splitOnChar (sep : Char) : List Char → List (List Char)
  | [] => [[]]
  | c :: rest =>
    let r := splitOnChar sep rest
    if c = sep then [] :: r
    else
      match r with
      | h :: t => (c :: h) :: t
      | [] => [[c]]

/-! ## SHA-256 (FIPS 180-4), executable over `Nat` with explicit mod 2^32 -/

/-- The 32-bit mask. -/
def m32 : Nat := 0xFFFFFFFF

/-- Right rotation of a 32-bit word. -/
def rotr (k x : Nat) : Nat := ((x >>> k) ||| (x <<< (32 - k))) &&& m32

/-- SHA-256 small sigma 0. -/
def ssig0 (x : Nat) : Nat := rotr 7 x ^^^ rotr 18 x ^^^ (x >>> 3)

/-- SHA-256 small sigma 1. -/
def ssig1 (x : Nat) : Nat := rotr 17 x ^^^ rotr 19 x ^^^ (x >>> 10)

/-- SHA-256 big Sigma 0. -/
def bsig0 (x : Nat) : Nat := rotr 2 x ^^^ rotr 13 x ^^^ rotr 22 x

/-- SHA-256 big Sigma 1. -/
def bsig1 (x : Nat) : Nat := rotr 6 x ^^^ rotr 11 x ^^^ rotr 25 x

/-- SHA-256 round constants. -/
def sha256K : List Nat :=
  [1116352408, 1899447441, 3049323471, 3921009573, 961987163, 1508970993,
   2453635748, 2870763221, 3624381080, 310598401, 607225278, 1426881987,
   1925078388, 2162078206, 2614888103, 3248222580, 3835390401, 4022224774,
   264347078, 604807628, 770255983, 1249150122, 1555081692, 1996064986,
   2554220882, 2821834349, 2952996808, 3210313671, 3336571891, 3584528711,
   113926993, 338241895, 666307205, 773529912, 1294757372, 1396182291,
   1695183700, 1986661051, 2177026350, 2456956037, 2730485921, 2820302411,
   3259730800, 3345764771, 3516065817, 3600352804, 4094571909, 275423344,
   430227734, 506948616, 659060556, 883997877, 958139571, 1322822218,
   1537002063, 1747873779, 1955562222, 2024104815, 2227730452, 2361852424,
   2428436474, 2756734187, 3204031479, 3329325298]

/-- SHA-256 initial hash value. -/
def sha256H0 : List Nat :=
  [1779033703, 3144134277, 1013904242, 2773480762,
   1359893119, 2600822924, 528734635, 1541459225]

/-- `k` bytes of `n`, big-endian. -/
def beBytes : Nat → Nat → List Nat
  | 0, _ => []
  | k + 1, n => beBytes k (n / 256) ++ [n % 256]

/-- Group bytes into big-endian 32-bit words (groups of four). -/
def bytesToWords : List Nat → List Nat
  | a :: b :: c :: d :: rest => (((a * 256 + b) * 256 + c) * 256 + d) :: bytesToWords rest
  | _ => []

/-- One message-schedule extension step: append `W[t]` for the next `t`. -/
def schedStep (w : List Nat) : List Nat :=
  let l := w.length
  w ++ [(ssig1 (w.getD (l - 2) 0) + w.getD (l - 7) 0 +
         ssig0 (w.getD (l - 15) 0) + w.getD (l - 16) 0) % 2 ^ 32]

/-- Extend the 16 block words to the full 64-entry message schedule. -/
def sched : Nat → List Nat → List Nat
  | 0, w => w
  | n + 1, w => sched n (schedStep w)

/-- Working state for the SHA-256 compression rounds. -/
structure ShaSt where
  a : Nat
  b : Nat
  c : Nat
  d : Nat
  e : Nat
  f : Nat
  g : Nat
  h : Nat

/-- One compression round with round constant and schedule word `kw`. -/
def shaRound (st : ShaSt) (kw : Nat × Nat) : ShaSt :=
  let ch := (st.e &&& st.f) ^^^ ((st.e ^^^ m32) &&& st.g)
  let maj := (st.a &&& st.b) ^^^ (st.a &&& st.c) ^^^ (st.b &&& st.c)
  let t1 := (st.h + bsig1 st.e + ch + kw.1 + kw.2) % 2 ^ 32
  let t2 := (bsig0 st.a + maj) % 2 ^ 32
  ⟨(t1 + t2) % 2 ^ 32, st.a, st.b, st.c, (st.d + t1) % 2 ^ 32, st.e, st.f, st.g⟩

/-- Compress one 16-word block into the chaining value. -/
def compressBlock (hs : List Nat) (block : List Nat) : List Nat :=
  let w := sched 48 block
  let st0 : ShaSt := ⟨hs.getD 0 0, hs.getD 1 0, hs.getD 2 0, hs.getD 3 0,
                      hs.getD 4 0, hs.getD 5 0, hs.getD 6 0, hs.getD 7 0⟩
  let st := (sha256K.zip w).foldl shaRound st0
  [(hs.getD 0 0 + st.a) % 2 ^ 32, (hs.getD 1 0 + st.b) % 2 ^ 32,
   (hs.getD 2 0 + st.c) % 2 ^ 32, (hs.getD 3 0 + st.d) % 2 ^ 32,
   (hs.getD 4 0 + st.e) % 2 ^ 32, (hs.getD 5 0 + st.f) % 2 ^ 32,
   (hs.getD 6 0 + st.g) % 2 ^ 32, (hs.getD 7 0 + st.h) % 2 ^ 32]

/-- Iterate block compression over `n` 16-word chunks of `ws`. -/
def shaBlocks : Nat → List Nat → List Nat → List Nat
  | 0, hs, _ => hs
  | n + 1, hs, ws => shaBlocks n (compressBlock hs (ws.take 16)) (ws.drop 16)

/-- SHA-256 padding: append `0x80`, zeros, and the 64-bit big-endian bit length. -/
def sha256Pad (msg : List Nat) : List Nat :=
  msg ++ [0x80] ++ List.replicate ((119 - msg.length % 64) % 64) 0 ++
    beBytes 8 (8 * msg.length)

/-- SHA-256 of a byte list, as the 32 digest bytes. -/
def sha256 (msg : List Nat) : List Nat :=
  let ws := bytesToWords (sha256Pad msg)
  let hs := shaBlocks (ws.length / 16) sha256H0 ws
  hs.flatMap (beBytes 4)

/-! ## Nix base-32 rendering (the `nix_base32` crate / Nix's `to_nix_base32`)

Nix renders hash digests with the 32-character alphabet below (`e o t u`
omitted), emitting 5-bit groups from the highest group index down to 0, where
group `n` is bits `5n .. 5n+4` of the byte string read little-endian within
the indexing scheme of the reference implementation.  Defined for nonempty
inputs (the Rust crate's length formula underflows on an empty input). -/

/-- The nix-base32 alphabet. -/
def nixB32Alphabet : List Char := "0123456789abcdfghijklmnpqrsvwxyz".data

/-- The character for 5-bit group `n` of byte string `bytes`. -/
def nixB32Char (bytes : List Nat) (n : Nat) : Char :=
  let b := n * 5
  let i := b / 8
  let j := b % 8
  let c := (bytes.getD i 0 >>> j) |||
           (if i + 1 < bytes.length then bytes.getD (i + 1) 0 <<< (8 - j) else 0)
  nixB32Alphabet.getD (c &&& 0x1f) '0'

/-- `nix_base32::to_nix_base32`: length `(8·len − 1)/5 + 1`, highest group
first. -/
def nixBase32 (bytes : List Nat) : List Char :=
  ((List.range ((bytes.length * 8 - 1) / 5 + 1)).reverse).map (nixB32Char bytes)

/-! ## StorePath (`store_path.rs`)

A store path is kept as its full path string; `StorePath::new` validates the
file-name component.  `Path::file_name` is modelled on clean paths: the last
path component after dropping empty and `.` components, and `none` when the
path is empty, a bare root, or ends in `..`. -/

/-- Model of `Path::file_name().and_then(|n| n.to_str())`. -/
def fileNameOf (path : List Char) : Option (List Char) :=
  let comps := (splitOnChar '/' path).filter (fun c => ¬ (c = [] ∨ c = ['.']))
  match comps.getLast? with
  | none => none
  | some last => if last = ['.', '.'] then none else some last

/-- A Nix store path: the full path including the store directory
(the `StorePath` struct of the source holds just the `PathBuf`). -/
structure StorePath where
  path : List Char
deriving DecidableEq

/-- `StorePath::new`: reject a missing file name, a file name of UTF-8 byte
length ≤ 33, or one whose character at index 32 is not a dash. -/
def storePathNew (path : List Char) : Option StorePath :=
  match fileNameOf path with
  | none => none
  | some filename =>
    if utf8Len filename ≤ 33 ∨ ¬ filename.get? 32 = some '-' then none
    else some ⟨path⟩

/-- `StorePath::hash_part`: the byte slice `&filename[0..32]` (`none` models
the panic on short or boundary-violating file names). -/
def hashPart (sp : StorePath) : Option (List Char) :=
  (fileNameOf sp.path).bind (byteTake 32)

/-- `StorePath::name`: the byte slice `&filename[33..]`. -/
def spName (sp : StorePath) : Option (List Char) :=
  (fileNameOf sp.path).bind (byteDrop 33)

/-- `StorePath::is_derivation`: the name ends with `.drv`. -/
def isDerivation (sp : StorePath) : Bool :=
  match spName sp with
  | some n => ['.', 'd', 'r', 'v'].isSuffixOf n
  | none => false

/-! ## Placeholder (`placeholder.rs`) -/

/-- The suffix `.drv`, as characters. -/
def drvSuffix : List Char := ['.', 'd', 'r', 'v']

/-- Strip a trailing `.drv` from a derivation name (the byte slice
`&drv_name[0..len-4]`; the suffix is ASCII, so it is the last four
characters). -/
def stripDrv (n : List Char) : List Char :=
  if drvSuffix.isSuffixOf n then n.take (n.length - 4) else n

/-- `output_path_name`: `drv_name` for output `out`, else
`drv_name-output_name`. -/
def outputPathName (drvName outputName : List Char) : List Char :=
  if outputName = "out".data then drvName else drvName ++ '-' :: outputName

/-- A placeholder is its hash bytes. -/
def PHash : Type := List Nat

/-- `Placeholder::render`: `/` followed by the nix-base32 digest. -/
def renderPlaceholder (hash : List Nat) : List Char :=
  '/' :: nixBase32 hash

/-- `Placeholder::render` as a Lean string. -/
def renderStr (hash : List Nat) : String :=
  String.mk (renderPlaceholder hash)

/-- `Placeholder::standard_output`: SHA-256 of `nix-output:<name>`. -/
def standardOutput (outputName : List Char) : List Nat :=
  sha256 (utf8Bytes ("nix-output:".data ++ outputName))

/-- `Placeholder::ca_output`: SHA-256 of
`nix-upstream-output:<hash-part>:<output-path-name>`, with the drv name
stripped of its `.drv` suffix; `none` models the panics of `name`/`hash_part`
on byte-slice violations. -/
def caOutput (drvPath : StorePath) (outputName : List Char) : Option (List Nat) :=
  match spName drvPath, hashPart drvPath with
  | some drvName, some hp =>
    some (sha256 (utf8Bytes
      ("nix-upstream-output:".data ++ hp ++ ':' :: outputPathName (stripDrv drvName) outputName)))
  | _, _ => none

/-- `compress_hash`: XOR-fold the bytes into a `newSize`-byte buffer at
position `index mod newSize`; empty input gives an empty output. -/
def compressHash (hash : List Nat) (newSize : Nat) : List Nat :=
  if hash = [] then []
  else hash.enum.foldl
    (fun acc p => acc.set (p.1 % newSize) (acc.getD (p.1 % newSize) 0 ^^^ p.2))
    (List.replicate newSize 0)

/-- `Placeholder::dynamic_output`: SHA-256 of
`nix-computed-output:<base32(compress(hash, 20))>:<output-name>`. -/
def dynamicOutput (hash : List Nat) (outputName : List Char) : List Nat :=
  sha256 (utf8Bytes
    ("nix-computed-output:".data ++ nixBase32 (compressHash hash 20) ++ ':' :: outputName))

/-! ## Derived paths (`derived_path.rs`) -/

/-- `SingleDerivedPath`: an opaque store path, or the named output of a
derivation. -/
inductive SingleDerivedPath where
  | opaq (sp : StorePath)
  | built (drvPath : StorePath) (output : List Char)
deriving DecidableEq

/-- `SingleDerivedPathBuilt::placeholder`: the rendered content-addressed
output placeholder of the derivation/output pair. -/
def builtPlaceholder (drvPath : StorePath) (output : List Char) : Option (List Char) :=
  (caOutput drvPath output).map renderPlaceholder

/-- `SingleDerivedPath::to_input`: the path itself for opaque paths, the
rendered placeholder for built ones. -/
def toInput : SingleDerivedPath → Option (List Char)
  | .opaq sp => some sp.path
  | .built drvPath output => builtPlaceholder drvPath output

/-! ## DerivedFile (`derived_file.rs`) -/

/-- `DerivedFile`: a derived path plus the logical source path. -/
structure DerivedFile where
  path : SingleDerivedPath
  source : List Char
deriving DecidableEq

/-- `DerivedFile::to_encoded`: `<input-projection>:<source>`. -/
def toEncoded (f : DerivedFile) : Option (List Char) :=
  (toInput f.path).map (fun inp => inp ++ ':' :: f.source)

/-- `DerivedFile::from_encoded`: split on `:`, require exactly two parts,
revalidate the first as a store path, and build an opaque derived file. -/
def fromEncoded (encoded : List Char) : Option DerivedFile :=
  let parts := splitOnChar ':' encoded
  if parts.length = 2 then
    match storePathNew (parts.getD 0 []) with
    | some sp => some ⟨.opaq sp, parts.getD 1 []⟩
    | none => none
  else none

/-! ## Derivation (`derivation.rs`)

`HashMap`/`HashSet` fields are association lists/lists whose order stands for
the map's iteration order (which `std::collections` leaves unspecified and
varies between process runs).  `serde_json::to_string` serializes struct
fields in declaration order and maps in iteration order. -/

/-- `HashAlgorithm`. -/
inductive HashAlgorithm where
  | sha256
  | sha512
deriving DecidableEq

/-- `OutputHashMode`. -/
inductive OutputHashMode where
  | flat
  | nar
  | text
deriving DecidableEq

/-- `Output`: optional fields are skipped when `None`. -/
structure Output where
  hashAlgo : Option HashAlgorithm
  method : Option OutputHashMode
  hash : Option String
deriving DecidableEq

/-- `DynamicOutput` (recursive). -/
inductive DynOutput where
  | mk (outputs : List String) (dynamicOutputs : List (String × DynOutput))

/-- `InputDrv`. -/
structure InputDrv where
  outputs : List String
  dynamicOutputs : List (String × DynOutput)

/-- `Derivation`.  The `env` map, `inputDrvs` map, `inputSrcs` set and
`outputs` map are unordered collections in the source; the list order here
models their iteration order. -/
structure Derivation where
  name : String
  system : String
  builder : String
  args : List String
  env : List (String × String)
  inputDrvs : List (String × InputDrv)
  inputSrcs : List String
  outputs : List (String × Output)

/-- `Derivation::new`. -/
def derivationNew (name system builder : String) : Derivation :=
  ⟨name, system, builder, [], [], [], [], []⟩

/-- `Derivation::add_input_src` (`HashSet::insert`: no-op when present, else
append in iteration order). -/
def addInputSrc (d : Derivation) (path : String) : Derivation :=
  if path ∈ d.inputSrcs then d else { d with inputSrcs := d.inputSrcs ++ [path] }

/-- Extend the entry for `path` (creating `{outputs: [], dynamicOutputs: {}}`
first when absent) with the extra outputs — the body of
`Derivation::add_input_drv`. -/
def extendIDrv : List (String × InputDrv) → String → List String → List (String × InputDrv)
  | [], path, outs => [(path, ⟨outs, []⟩)]
  | (k, v) :: rest, path, outs =>
    if k = path then (k, ⟨v.outputs ++ outs, v.dynamicOutputs⟩) :: rest
    else (k, v) :: extendIDrv rest path outs

/-- `Derivation::add_input_drv`. -/
def addInputDrv (d : Derivation) (path : String) (outs : List String) : Derivation :=
  { d with inputDrvs := extendIDrv d.inputDrvs path outs }

/-- `HashMap::insert` on an association list: replace in place, else append. -/
def insertAssoc : List (String × DynOutput) → String → DynOutput → List (String × DynOutput)
  | [], k, v => [(k, v)]
  | (k1, v1) :: rest, k, v =>
    if k1 = k then (k, v) :: rest else (k1, v1) :: insertAssoc rest k v

/-- Apply `f` to the entry for `k` (first match). -/
def updateIDrv (l : List (String × InputDrv)) (k : String) (f : InputDrv → InputDrv) :
    List (String × InputDrv) :=
  l.map (fun p => if p.1 = k then (p.1, f p.2) else p)

/-- `Derivation::add_dynamic_output`: first `add_input_drv(path, [])`, then
look the entry up (reporting `Input derivation not found` when absent) and
insert the dynamic output under it. -/
def addDynamicOutput (d : Derivation) (drvPath outputName : String) (outs : List String) :
    Except String Derivation :=
  let d := addInputDrv d drvPath []
  match List.lookup drvPath d.inputDrvs with
  | none => .error ("Input derivation not found: " ++ drvPath)
  | some _ =>
    let newDrvs := updateIDrv d.inputDrvs drvPath
      (fun idrv => ⟨idrv.outputs, insertAssoc idrv.dynamicOutputs outputName (.mk outs [])⟩)
    .ok { d with inputDrvs := newDrvs }

/-! ### JSON serialization (`serde_json::to_string` of the annotated structs) -/

/-- One hex digit, lowercase. -/
def hexDigit (n : Nat) : Char := "0123456789abcdef".data.getD n '0'

/-- serde_json's escaping of a single character inside a string literal. -/
def escChar (c : Char) : List Char :=
  if c = '"' then ['\\', '"']
  else if c = '\\' then ['\\', '\\']
  else if c = '\x08' then ['\\', 'b']
  else if c = '\x0c' then ['\\', 'f']
  else if c = '\n' then ['\\', 'n']
  else if c = '\r' then ['\\', 'r']
  else if c = '\t' then ['\\', 't']
  else if c.toNat < 0x20 then ['\\', 'u', '0', '0', hexDigit (c.toNat / 16), hexDigit (c.toNat % 16)]
  else [c]

/-- A JSON string literal. -/
def jsonStr (s : String) : String :=
  "\"" ++ String.mk (s.data.flatMap escChar) ++ "\""

/-- A JSON array from already-rendered element texts. -/
def jsonArrRaw (elems : List String) : String :=
  "[" ++ String.intercalate "," elems ++ "]"

/-- A JSON object from already-rendered `key:value` member texts. -/
def jsonObjRaw (members : List String) : String :=
  "\x7b" ++ String.intercalate "," members ++ "\x7d"

/-- A JSON array of strings. -/
def jsonArrStr (l : List String) : String := jsonArrRaw (l.map jsonStr)

/-- `HashAlgorithm` serde rename. -/
def jsonHashAlgo : HashAlgorithm → String
  | .sha256 => jsonStr "sha256"
  | .sha512 => jsonStr "sha512"

/-- `OutputHashMode` serde rename. -/
def jsonMethod : OutputHashMode → String
  | .flat => jsonStr "flat"
  | .nar => jsonStr "nar"
  | .text => jsonStr "text"

/-- JSON of `Output`: `None` fields are skipped
(`skip_serializing_if = "Option::is_none"`). -/
def jsonOutput (o : Output) : String :=
  jsonObjRaw
    ((match o.hashAlgo with
      | some a => [jsonStr "hashAlgo" ++ ":" ++ jsonHashAlgo a]
      | none => []) ++
     (match o.method with
      | some m => [jsonStr "method" ++ ":" ++ jsonMethod m]
      | none => []) ++
     (match o.hash with
      | some h => [jsonStr "hash" ++ ":" ++ jsonStr h]
      | none => []))

/-- JSON of `DynamicOutput` (fields `outputs`, `dynamicOutputs`). -/
def jsonDynOutput : DynOutput → String
  | .mk outs dyns =>
    "\x7b" ++ jsonStr "outputs" ++ ":" ++ jsonArrStr outs ++ "," ++
      jsonStr "dynamicOutputs" ++ ":" ++
      jsonObjRaw (dyns.attach.map (fun p => jsonStr p.1.1 ++ ":" ++ jsonDynOutput p.1.2)) ++
      "\x7d"
decreasing_by
  have hm := List.sizeOf_lt_of_mem p.2
  have hp : sizeOf p.1.2 < sizeOf p.1 := by
    obtain ⟨⟨k, v⟩, _⟩ := p
    simp
  simp only [DynOutput.mk.sizeOf_spec]
  omega

/-- JSON of `InputDrv`. -/
def jsonInputDrv (v : InputDrv) : String :=
  "\x7b" ++ jsonStr "outputs" ++ ":" ++ jsonArrStr v.outputs ++ "," ++
    jsonStr "dynamicOutputs" ++ ":" ++
    jsonObjRaw (v.dynamicOutputs.map (fun p => jsonStr p.1 ++ ":" ++ jsonDynOutput p.2)) ++
    "\x7d"

/-- `Derivation::to_json` (`serde_json::to_string`): struct fields in
declaration order with their serde renames; `env`, `inputDrvs` and `outputs`
serialize as objects and `inputSrcs` as a plain array
(`serialize_hashset_as_vec`), each in iteration order. -/
def toJson (d : Derivation) : String :=
  "\x7b" ++
    jsonStr "name" ++ ":" ++ jsonStr d.name ++ "," ++
    jsonStr "system" ++ ":" ++ jsonStr d.system ++ "," ++
    jsonStr "builder" ++ ":" ++ jsonStr d.builder ++ "," ++
    jsonStr "args" ++ ":" ++ jsonArrStr d.args ++ "," ++
    jsonStr "env" ++ ":" ++
      jsonObjRaw (d.env.map (fun p => jsonStr p.1 ++ ":" ++ jsonStr p.2)) ++ "," ++
    jsonStr "inputDrvs" ++ ":" ++
      jsonObjRaw (d.inputDrvs.map (fun p => jsonStr p.1 ++ ":" ++ jsonInputDrv p.2)) ++ "," ++
    jsonStr "inputSrcs" ++ ":" ++ jsonArrStr d.inputSrcs ++ "," ++
    jsonStr "outputs" ++ ":" ++
      jsonObjRaw (d.outputs.map (fun p => jsonStr p.1 ++ ":" ++ jsonOutput p.2)) ++
    "\x7d"

/-! ## Dependency-command normalization (`gcc_depfile_parser.rs`)

`create_deps_command` is modelled from the point after `shell_words::split`
(an external crate): it takes the split argument vector.  The byte-length
tests `arg.len() > 2` / `> 8` are equivalent to the character-length tests
used here, because they are guarded by the ASCII prefixes `-I` / `-isystem`
(a string with such a prefix has more than `n` bytes iff it is not exactly
the prefix iff it has more than `n` characters). -/

/-- `str::starts_with` (by characters; the patterns used are ASCII, where the
byte and character readings agree). -/
def strStartsWith (s pre : String) : Bool := pre.data.isPrefixOf s.data

/-- `str::contains(<char>)`. -/
def strContainsChar (s : String) (c : Char) : Bool := s.data.contains c

/-- `DepsError`. -/
inductive DepsError where
  | parseError (msg : String)
  | unsupportedCompiler (compiler : String)
deriving DecidableEq

/-- `DepsConfig`. -/
structure DepsConfig where
  outputPath : String
  includeSystemHeaders : Bool

/-- `DepsConfig::default`. -/
def depsConfigDefault : DepsConfig := ⟨"deps.d", false⟩

/-- The generated command: program plus argument list. -/
structure Cmd where
  program : String
  args : List String
deriving DecidableEq

/-- `SUPPORTED_COMPILERS`. -/
def supportedCompilers : List String :=
  ["gcc", "g++", "clang", "clang++", "cc", "c++", "emcc", "em++"]

/-- `str::contains(pat)`: substring test. -/
def containsSub (s pat : List Char) : Bool :=
  (List.range (s.length + 1)).any (fun i => pat.isPrefixOf (s.drop i))

/-- The basename used for the compiler check:
`Path::new(compiler).file_name().and_then(to_str).unwrap_or(compiler)`. -/
def baseNameStr (s : String) : String :=
  match fileNameOf s.data with
  | some fn => String.mk fn
  | none => s

/-- Accumulator of the argument-processing loop. -/
structure ProcSt where
  includeFlags : List String
  stdFlag : Option String
  defineFlags : List String
  inputFile : Option String

/-- The argument-processing `while` loop of `create_deps_command`: `-I`,
`-isystem` and `-D` in attached or separated form are collected, `-std=` is
remembered, a non-flag argument containing `.` overwrites the input file, and
`-o`/`-MF`/`-MQ` consume their operand. -/
def procArgs : List String → ProcSt → ProcSt
  | [], st => st
  | arg :: rest, st =>
    if strStartsWith arg "-I" then
      if 2 < arg.length then procArgs rest { st with includeFlags := st.includeFlags ++ [arg] }
      else
        match rest with
        | next :: rest2 => procArgs rest2 { st with includeFlags := st.includeFlags ++ ["-I" ++ next] }
        | [] => st
    else if strStartsWith arg "-isystem" then
      if 8 < arg.length then procArgs rest { st with includeFlags := st.includeFlags ++ [arg] }
      else
        match rest with
        | next :: rest2 =>
          procArgs rest2 { st with includeFlags := st.includeFlags ++ ["-isystem" ++ next] }
        | [] => st
    else if strStartsWith arg "-std=" then procArgs rest { st with stdFlag := some arg }
    else if strStartsWith arg "-D" then
      if 2 < arg.length then procArgs rest { st with defineFlags := st.defineFlags ++ [arg] }
      else
        match rest with
        | next :: rest2 => procArgs rest2 { st with defineFlags := st.defineFlags ++ ["-D" ++ next] }
        | [] => st
    else if ¬ strStartsWith arg "-" ∧ strContainsChar arg '.' then
      procArgs rest { st with inputFile := some arg }
    else if arg = "-o" ∨ arg = "-MF" ∨ arg = "-MQ" then
      match rest with
      | _ :: rest2 => procArgs rest2 st
      | [] => st
    else procArgs rest st

/-- `create_deps_command` (after shell splitting): validate the compiler
against the allow-list (basename equality or substring), process the
arguments, require an input file, and assemble
`includes ++ std ++ defines ++ [-M|-MM] -MF <output> <input>`. -/
def createDepsCommand (args : List String) (config : DepsConfig) : Except DepsError Cmd :=
  match args with
  | [] => .error (.parseError "Empty command")
  | compiler :: rest =>
    if ¬ supportedCompilers.any
        (fun c => baseNameStr compiler = c ∨ containsSub (baseNameStr compiler).data c.data) then
      .error (.unsupportedCompiler compiler)
    else
      match (procArgs rest ⟨[], none, [], none⟩).inputFile with
      | none => .error (.parseError "Could not identify input file")
      | some input =>
        .ok ⟨compiler,
          (procArgs rest ⟨[], none, [], none⟩).includeFlags ++
          (match (procArgs rest ⟨[], none, [], none⟩).stdFlag with
           | some f => [f] | none => []) ++
          (procArgs rest ⟨[], none, [], none⟩).defineFlags ++
          (if config.includeSystemHeaders then ["-M"] else ["-MM"]) ++
          ["-MF", config.outputPath, input]⟩

/-- The input-file candidates of an argument list: the arguments that are not
consumed as flags or flag operands, do not start with `-`, and contain `.`
(the arguments the loop's input-file branch fires on, in order). -/
def inputCandidates : List String → List String
  | [] => []
  | arg :: rest =>
    if strStartsWith arg "-I" then
      if 2 < arg.length then inputCandidates rest
      else
        match rest with
        | _ :: rest2 => inputCandidates rest2
        | [] => []
    else if strStartsWith arg "-isystem" then
      if 8 < arg.length then inputCandidates rest
      else
        match rest with
        | _ :: rest2 => inputCandidates rest2
        | [] => []
    else if strStartsWith arg "-std=" then inputCandidates rest
    else if strStartsWith arg "-D" then
      if 2 < arg.length then inputCandidates rest
      else
        match rest with
        | _ :: rest2 => inputCandidates rest2
        | [] => []
    else if ¬ strStartsWith arg "-" ∧ strContainsChar arg '.' then arg :: inputCandidates rest
    else if arg = "-o" ∨ arg = "-MF" ∨ arg = "-MQ" then
      match rest with
      | _ :: rest2 => inputCandidates rest2
      | [] => []
    else inputCandidates rest

/-! ## Transitive include discovery (`c_include_parser.rs`)

`bfs_parse_includes` is modelled over an abstract element type `α` and an
abstract `scan : α → List α` giving, for each source file, its `#include`
references resolved against the include-directory list (the per-file parsing
and resolution live in the external `include_graph` crate; the order of
sources within a batch is preserved by the parallel collection).  The `while`
loop takes fuel (one unit per wave); `none` models a run that needs more
waves than the fuel allows, an outcome the Rust loop never reports. -/

section BFS

variable {α : Type} [DecidableEq α]

/-- State of the traversal: the dedup set, the queue and the result list. -/
structure BfsState (α : Type) where
  visited : List α
  queue : List α
  result : List α

/-- `if visited.insert(x) { queue.push_back(x); result.push(x) }`. -/
def bfsInsert (st : BfsState α) (x : α) : BfsState α :=
  if x ∈ st.visited then st
  else ⟨x :: st.visited, st.queue ++ [x], st.result ++ [x]⟩

/-- Initialization from the starting files. -/
def bfsInit (files : List α) : BfsState α :=
  files.foldl bfsInsert ⟨[], [], []⟩

/-- One wave: drain the queue, scan every file in batch order, and enqueue the
newly visited includes. -/
def bfsStep (scan : α → List α) (st : BfsState α) : BfsState α :=
  (st.queue.flatMap scan).foldl bfsInsert ⟨st.visited, [], st.result⟩

/-- The `while !queue.is_empty()` loop, with fuel. -/
def bfsLoop (scan : α → List α) : Nat → BfsState α → Option (List α)
  | 0, st => if st.queue.isEmpty then some st.result else none
  | fuel + 1, st =>
    if st.queue.isEmpty then some st.result else bfsLoop scan fuel (bfsStep scan st)

/-- `bfs_parse_includes`. -/
def bfsParseIncludes (scan : α → List α) (fuel : Nat) (files : List α) : Option (List α) :=
  bfsLoop scan fuel (bfsInit files)

/-- The new elements of a batch, in order: those not yet visited, first
occurrence only (the elements `visited.insert` accepts). -/
def freshOnly (v : List α) : List α → List α
  | [] => []
  | a :: l => if a ∈ v then freshOnly v l else a :: freshOnly (a :: v) l

/-- `x` is within distance `n` of the initial file set along resolved
includes: in the set itself at distance 0, and one `scan` edge beyond
distance `n` at distance `n+1`. -/
def distLe (scan : α → List α) (files : List α) : Nat → α → Prop
  | 0, x => x ∈ files
  | n + 1, x => distLe scan files n x ∨ ∃ y, distLe scan files n y ∧ x ∈ scan y

/-- `x` is reachable from the initial file set along resolved includes. -/
def reachableInc (scan : α → List α) (files : List α) (x : α) : Prop :=
  ∃ n, distLe scan files n x

/-- `x` is within distance strictly less than `n` of the initial file set. -/
def distLt (scan : α → List α) (files : List α) : Nat → α → Prop
  | 0, _ => False
  | n + 1, x => distLe scan files n x

/-- `x` is at distance exactly `k`: within `k` but not within `k - 1`. -/
def bfsExact (scan : α → List α) (files : List α) (k : Nat) (x : α) : Prop :=
  distLe scan files k x ∧ ¬ distLt scan files k x

/-- The loop invariant after `k` waves: the visited set and the result hold
exactly the files within distance `k` (the result without duplicates), the
queue holds exactly the files at distance `k`, and the result decomposes
into the drained waves, wave `i` holding files at distance exactly `i`. -/
def bfsInv (scan : α → List α) (files : List α) (k : Nat) (ws : List (List α))
    (st : BfsState α) : Prop :=
  (∀ x, x ∈ st.visited ↔ distLe scan files k x)
  ∧ (∀ x, x ∈ st.result ↔ distLe scan files k x)
  ∧ st.result.Nodup
  ∧ (∀ x, x ∈ st.queue ↔ bfsExact scan files k x)
  ∧ st.result = ws.flatten
  ∧ ws.length = k + 1
  ∧ (∀ i x, x ∈ ws.getD i [] → bfsExact scan files i x)

end BFS

/-! ## The scheduler's `want_file` walk (`build.rs`)

The Ninja graph is dense-indexed: a file knows its producing build (if any),
a build knows its `ordering_ins` and `validation_ins` file ids.  Out-of-range
ids read a default record, as stated in the theorems' well-formedness-free
formulations.  `want_file`/`want_build` are one fuel-indexed function over a
call sum type so that the mutual recursion is structural (hence executable);
every transition consumes one unit of fuel, and running out of fuel is the
distinguished outcome `WantErr.fuel`, distinct from the cycle error the Rust
code reports by `bail!`-ing with the chain of file names.  The cycle error
carries the file-id chain `stack[cycle..] ++ [fid]`; `renderCycleErr` renders
it to the exact message string the source formats. -/

/-- A Ninja file: name and optional producing build. -/
structure NFile where
  name : String
  input : Option Nat
deriving DecidableEq

/-- A Ninja build: ordering and validation input file ids. -/
structure NBuild where
  orderingIns : List Nat
  validationIns : List Nat
deriving DecidableEq

/-- The Ninja graph. -/
structure NGraph where
  files : List NFile
  builds : List NBuild

/-- File lookup (`graph.files.by_id[fid]`). -/
def fileOf (g : NGraph) (fid : Nat) : NFile := g.files.getD fid ⟨"", none⟩

/-- Build lookup (`graph.builds[bid]`). -/
def buildOf (g : NGraph) (bid : Nat) : NBuild := g.builds.getD bid ⟨[], []⟩

/-- `BuildState`. -/
inductive BState where
  | unneeded
  | want
  | ready
  | running
  | done
deriving DecidableEq

/-- `BuildStates`: the per-build states, the pending count and the ready
queue. -/
structure BStates where
  states : List BState
  totalPending : Nat
  readyQ : List Nat
deriving DecidableEq

/-- `BuildStates::get`. -/
def bsGet (st : BStates) (bid : Nat) : BState := st.states.getD bid .unneeded

/-- `BuildStates::set`: replace the state, bump `total_pending` when leaving
`Unneeded`, push to the ready queue on `Ready`, and decrement the pending
count on `Done`. -/
def bsSet (st : BStates) (bid : Nat) (s : BState) : BStates :=
  let prev := bsGet st bid
  let tp := if prev = .unneeded then st.totalPending + 1 else st.totalPending
  { states := st.states.set bid s,
    totalPending := if s = .done then tp - 1 else tp,
    readyQ := if s = .ready then st.readyQ ++ [bid] else st.readyQ }

/-- `BuildStates::new(build_count)`. -/
def initStates (g : NGraph) : BStates :=
  ⟨List.replicate g.builds.length .unneeded, 0, []⟩

/-- Errors of the walk: a detected dependency cycle (the chain of file ids the
source formats into its message), or fuel exhaustion (model-only). -/
inductive WantErr where
  | fuel
  | cycle (chain : List Nat)
deriving DecidableEq

/-- The message string the source builds for a cycle chain. -/
def renderCycleErr (g : NGraph) (chain : List Nat) : String :=
  "dependency cycle: " ++ String.intercalate " -> " (chain.map (fun f => (fileOf g f).name))

/-- `stack.iter().position(|&sid| sid == fid)`: index of the first
occurrence. -/
def posOf (fid : Nat) : List Nat → Option Nat
  | [] => none
  | x :: l => if x = fid then some 0 else (posOf fid l).map (· + 1)

/-- The calls of the `want_file`/`want_build` recursion: a file walk, a build
walk, the loop over a build's ordering inputs, and the loop over its
validation inputs. -/
inductive WCall where
  | wfile (st : BStates) (stack : List Nat) (fid : Nat)
  | wbuild (st : BStates) (stack : List Nat) (bid : Nat)
  | wins (st : BStates) (stack : List Nat) (l : List Nat)
  | wvals (st : BStates) (stack : List Nat) (l : List Nat)

/-- The combined `want_file`/`want_build` recursion.  Result components:
states, the boolean `want_file` returns (dependency ready), and the
`BuildState` `want_build` returns; callers project what they need.

* `wfile`: error with chain `stack[i..] ++ [fid]` when `fid` is on the stack;
  `true` when the file has no producing build; otherwise walk the build with
  `fid` pushed, and report whether it came back `Done`.
* `wbuild`: return the recorded state when not `Unneeded` (already visited);
  otherwise walk `ordering_ins` (ready iff all ready), record
  `Ready`/`Want`, then walk `validation_ins` for effect.
-/
def wantGo (g : NGraph) : Nat → WCall → Except WantErr (BStates × Bool × BState)
  | 0, _ => .error .fuel
  | fuel + 1, c =>
    match c with
    | .wfile st stack fid =>
      match posOf fid stack with
      | some i => .error (.cycle (stack.drop i ++ [fid]))
      | none =>
        match (fileOf g fid).input with
        | none => .ok (st, true, .unneeded)
        | some bid =>
          match wantGo g fuel (.wbuild st (stack ++ [fid]) bid) with
          | .error e => .error e
          | .ok (st1, _, s) => .ok (st1, s = .done, s)
    | .wbuild st stack bid =>
      let s0 := bsGet st bid
      if s0 ≠ .unneeded then .ok (st, true, s0)
      else
        match wantGo g fuel (.wins st stack (buildOf g bid).orderingIns) with
        | .error e => .error e
        | .ok (st1, ready, _) =>
          let state := if ready then BState.ready else BState.want
          let st2 := bsSet st1 bid state
          match wantGo g fuel (.wvals st2 stack (buildOf g bid).validationIns) with
          | .error e => .error e
          | .ok (st3, _, _) => .ok (st3, true, state)
    | .wins st _ [] => .ok (st, true, .unneeded)
    | .wins st stack (fid :: rest) =>
      match wantGo g fuel (.wfile st stack fid) with
      | .error e => .error e
      | .ok (st1, r, _) =>
        match wantGo g fuel (.wins st1 stack rest) with
        | .error e => .error e
        | .ok (st2, r2, _) => .ok (st2, r && r2, .unneeded)
    | .wvals st _ [] => .ok (st, true, .unneeded)
    | .wvals st stack (fid :: rest) =>
      match wantGo g fuel (.wfile st stack fid) with
      | .error e => .error e
      | .ok (st1, _, _) =>
        match wantGo g fuel (.wvals st1 stack rest) with
        | .error e => .error e
        | .ok (st2, _, _) => .ok (st2, true, .unneeded)

/-- `BuildStates::want_file`, fuel-indexed. -/
def wantFile (g : NGraph) (fuel : Nat) (st : BStates) (stack : List Nat) (fid : Nat) :
    Except WantErr (BStates × Bool) :=
  match wantGo g fuel (.wfile st stack fid) with
  | .error e => .error e
  | .ok (st1, r, _) => .ok (st1, r)

/-- Dependency edge through a build's ordering inputs: `f` is produced by a
build one of whose `ordering_ins` is `f2`. -/
def depO (g : NGraph) (f f2 : Nat) : Prop :=
  ∃ b, (fileOf g f).input = some b ∧ f2 ∈ (buildOf g b).orderingIns

/-- Dependency edge through a build's ordering or validation inputs (every
edge the walk traverses). -/
def depU (g : NGraph) (f f2 : Nat) : Prop :=
  ∃ b, (fileOf g f).input = some b ∧
    (f2 ∈ (buildOf g b).orderingIns ∨ f2 ∈ (buildOf g b).validationIns)

/-- A dependency cycle is reachable from `f` along ordering edges. -/
def hasCycleFromO (g : NGraph) (f : Nat) : Prop :=
  ∃ x, Relation.ReflTransGen (depO g) f x ∧ Relation.TransGen (depO g) x x

/-- The graph has no dependency cycle (through ordering or validation
edges). -/
def acyclicU (g : NGraph) : Prop :=
  ∀ x, ¬ Relation.TransGen (depU g) x x

/-- A reported chain is a genuine closed dependency walk: at least two
entries, consecutive entries are dependency edges, and it starts and ends at
the same file. -/
def genuineCycle (g : NGraph) (chain : List Nat) : Prop :=
  2 ≤ chain.length ∧ chain.head? = chain.getLast? ∧ List.Chain' (depU g) chain

/-- The states component a call carries. -/
def wcallSt : WCall → BStates
  | .wfile st _ _ => st
  | .wbuild st _ _ => st
  | .wins st _ _ => st
  | .wvals st _ _ => st

/-- The stack invariant of the walk: every reported chain extends the current
stack, and consecutive files on the stack (and the call's pending files) are
dependency edges. -/
def callInv (g : NGraph) : WCall → Prop
  | .wfile _ stack fid => List.Chain' (depU g) (stack ++ [fid])
  | .wbuild _ stack bid =>
      ∀ f, f ∈ (buildOf g bid).orderingIns ∨ f ∈ (buildOf g bid).validationIns →
        List.Chain' (depU g) (stack ++ [f])
  | .wins _ stack l => ∀ f ∈ l, List.Chain' (depU g) (stack ++ [f])
  | .wvals _ stack l => ∀ f ∈ l, List.Chain' (depU g) (stack ++ [f])

/-- Marked-safety: every build already marked (left `Unneeded`) has no
ordering-dependency cycle reachable from any of its ordering inputs. -/
def msInv (g : NGraph) (st : BStates) : Prop :=
  ∀ bid, bsGet st bid ≠ .unneeded →
    ∀ f ∈ (buildOf g bid).orderingIns, ¬ hasCycleFromO g f

/-- What a successful call guarantees: the walked files have no reachable
ordering-dependency cycle. -/
def callPost (g : NGraph) : WCall → Prop
  | .wfile _ _ fid => ¬ hasCycleFromO g fid
  | .wbuild _ _ bid => ∀ f ∈ (buildOf g bid).orderingIns, ¬ hasCycleFromO g f
  | .wins _ _ l => ∀ f ∈ l, ¬ hasCycleFromO g f
  | .wvals _ _ _ => True

/-- Stack well-formedness for the termination argument: distinct entries,
all valid file ids. -/
def stackOk (g : NGraph) (stack : List Nat) : Prop :=
  stack.Nodup ∧ ∀ f ∈ stack, f < g.files.length

/-- Upper bound on the lengths of any build's ordering and validation input
lists, used to size the fuel. -/
def maxIns (g : NGraph) : Nat :=
  g.builds.foldr (fun b a => max (max b.orderingIns.length b.validationIns.length) a) 0

/-- Fuel sufficient for a `wfile` walk whose stack can still grow by `k`
entries: each level spends one step on the file, one on its build, and one
on each of the at most `maxIns g` inputs of the two input loops. -/
def wantFuel (g : NGraph) : Nat → Nat
  | 0 => 1
  | k + 1 => wantFuel g k + maxIns g + 1 + 1 + 1

/-- The two-file cycle graph of the scheduler-cycle scenario: `A` is produced
by build 0 with ordering input `B`, and `B` by build 1 with ordering input
`A`. -/
def cycleGraph : NGraph :=
  ⟨[⟨"A", some 0⟩, ⟨"B", some 1⟩], [⟨[1], []⟩, ⟨[0], []⟩]⟩

/-! ## Concrete instances used by the theorems below -/

/-- A path accepted by `StorePath::new` whose file name has only 33
characters: the first character is two UTF-8 bytes, so the byte length is 34
and the character at index 32 is the dash. -/
def pathNonAscii : List Char :=
  "/nix/store/".data ++ 'é' :: List.replicate 31 'a' ++ ['-']

/-- A store-path string from the repository's own tests. -/
def pathHello : List Char :=
  "/nix/store/ac8da0sqpg4pyhzyr0qgl26d5dnpn7qp-hello-2.10.tar.gz".data

/-- A valid store-path string with a one-character name. -/
def pathShort : List Char :=
  "/nix/store/aaaaaaaaaaaaaaaaaaaaaaaaaaaaaaaa-x".data

/-- A derivation store-path string. -/
def pathShortDrv : List Char :=
  "/nix/store/aaaaaaaaaaaaaaaaaaaaaaaaaaaaaaaa-x.drv".data

/-- A derivation whose `inputSrcs` iterate in one order... -/
def drvSrcsAB : Derivation :=
  { derivationNew "det" "x86_64-linux" "/bin/sh" with
    inputSrcs := ["/nix/store/aaaaaaaaaaaaaaaaaaaaaaaaaaaaaaaa-a",
                  "/nix/store/bbbbbbbbbbbbbbbbbbbbbbbbbbbbbbbb-b"] }

/-- ...and the same derivation with its `inputSrcs` iterating in the other
order (the two are equal as data: the set of input sources is the same). -/
def drvSrcsBA : Derivation :=
  { derivationNew "det" "x86_64-linux" "/bin/sh" with
    inputSrcs := ["/nix/store/bbbbbbbbbbbbbbbbbbbbbbbbbbbbbbbb-b",
                  "/nix/store/aaaaaaaaaaaaaaaaaaaaaaaaaaaaaaaa-a"] }

/-- A concrete include-scan function: file 0 includes 1 and 2, file 1
includes 2 and 3, file 3 includes 0 again (a cycle). -/
def scanEx : Nat → List Nat := fun n =>
  if n = 0 then [1, 2] else if n = 1 then [2, 3] else if n = 3 then [0] else []

/-! ## Helper lemmas: UTF-8 and byte slicing -/

theorem encChar_length_pos (c : Char) : 0 < (encChar c).length := by
  simp only [encChar]
  split_ifs <;> simp

theorem charSize_pos (c : Char) : 0 < charSize c := encChar_length_pos c

theorem charSize_ascii {c : Char} (h : c.toNat < 128) : charSize c = 1 := by
  unfold charSize encChar
  rw [if_pos h]
  rfl

theorem utf8Len_nil : utf8Len [] = 0 := rfl

theorem utf8Len_cons (c : Char) (l : List Char) :
    utf8Len (c :: l) = charSize c + utf8Len l := by
  simp [utf8Len, utf8Bytes, charSize]

theorem length_le_utf8Len (l : List Char) : l.length ≤ utf8Len l := by
  induction l with
  | nil => simp [utf8Len_nil]
  | cons c l ih =>
    rw [utf8Len_cons]
    have := charSize_pos c
    simp only [List.length_cons]
    omega

theorem utf8Len_ascii {l : List Char} (h : ∀ c ∈ l, c.toNat < 128) :
    utf8Len l = l.length := by
  induction l with
  | nil => simp [utf8Len_nil]
  | cons c l ih =>
    rw [utf8Len_cons, charSize_ascii (h c (by simp))]
    rw [ih (fun x hx => h x (by simp [hx]))]
    simp [Nat.add_comm]

theorem byteTake_ascii {l : List Char} (h : ∀ c ∈ l, c.toNat < 128) :
    ∀ n, n ≤ l.length → byteTake n l = some (l.take n) := by
  induction l with
  | nil =>
    intro n hn
    have hn0 : n = 0 := by simpa using hn
    subst hn0
    rfl
  | cons c l ih =>
    intro n hn
    match n with
    | 0 => rfl
    | n + 1 =>
      have hle : n ≤ l.length := by
        simp only [List.length_cons] at hn
        omega
      simp only [byteTake, charSize_ascii (h c (by simp)), Nat.add_sub_cancel,
        if_pos (by omega : 1 ≤ n + 1)]
      rw [ih (fun x hx => h x (by simp [hx])) n hle]
      simp

theorem byteDrop_ascii {l : List Char} (h : ∀ c ∈ l, c.toNat < 128) :
    ∀ n, n ≤ l.length → byteDrop n l = some (l.drop n) := by
  induction l with
  | nil =>
    intro n hn
    have hn0 : n = 0 := by simpa using hn
    subst hn0
    rfl
  | cons c l ih =>
    intro n hn
    match n with
    | 0 => rfl
    | n + 1 =>
      have hle : n ≤ l.length := by
        simp only [List.length_cons] at hn
        omega
      simp only [byteDrop, charSize_ascii (h c (by simp)), Nat.add_sub_cancel,
        if_pos (by omega : 1 ≤ n + 1)]
      exact ih (fun x hx => h x (by simp [hx])) n hle

/-! ## C4: StorePath validation and accessors -/

theorem storePathNew_noFileName {p : List Char} (h : fileNameOf p = none) :
    storePathNew p = none := by
  unfold storePathNew
  rw [h]

theorem storePathNew_isSome_iff {p fn : List Char} (h : fileNameOf p = some fn) :
    (storePathNew p).isSome ↔ (33 < utf8Len fn ∧ fn.get? 32 = some '-') := by
  unfold storePathNew
  rw [h]
  dsimp only
  split
  · rename_i hcond
    simp only [Option.isSome_none, Bool.false_eq_true, false_iff]
    rintro ⟨h1, h2⟩
    rcases hcond with hc | hc
    · omega
    · exact hc h2
  · rename_i hcond
    push_neg at hcond
    simp only [Option.isSome_some, true_iff]
    exact ⟨by omega, hcond.2⟩

theorem storePathNew_some {p : List Char} {sp : StorePath} (h : storePathNew p = some sp) :
    sp.path = p ∧ ∃ fn, fileNameOf p = some fn ∧ 33 < utf8Len fn ∧ fn.get? 32 = some '-' := by
  unfold storePathNew at h
  cases hf : fileNameOf p with
  | none => rw [hf] at h; cases h
  | some fn =>
    rw [hf] at h
    dsimp only at h
    split at h
    · cases h
    · rename_i hcond
      push_neg at hcond
      cases h
      exact ⟨rfl, fn, rfl, by omega, hcond.2⟩

/-- C4, amended accessor part: on an accepted path with an ASCII file name,
`hash_part` is the first 32 characters and `name` the characters from
index 33. -/
theorem storePath_accessors_ascii {p fn : List Char} {sp : StorePath}
    (h : storePathNew p = some sp) (hf : fileNameOf p = some fn)
    (hA : ∀ c ∈ fn, c.toNat < 128) :
    hashPart sp = some (fn.take 32) ∧ spName sp = some (fn.drop 33) := by
  obtain ⟨hpath, fn2, hf2, hlen, _⟩ := storePathNew_some h
  rw [hf] at hf2
  cases hf2
  have hcount : 33 < fn.length := by rw [← utf8Len_ascii hA]; exact hlen
  constructor
  · show (fileNameOf sp.path).bind (byteTake 32) = _
    rw [hpath, hf]
    exact byteTake_ascii hA 32 (by omega)
  · show (fileNameOf sp.path).bind (byteDrop 33) = _
    rw [hpath, hf]
    exact byteDrop_ascii hA 33 (by omega)

/-- C4 (amended).  `StorePath::new` accepts exactly the paths with a file-name
component of UTF-8 byte length at least 34 whose character at index 32 is a
dash; in particular a missing file name is rejected and every file name with
at least 34 characters and a dash at index 32 is accepted.  On accepted paths
with ASCII file names, `hash_part` is the first 32 characters of the file
name and `name` is the characters from index 33. -/
theorem storePath_validation_correct :
    (∀ p : List Char, fileNameOf p = none → storePathNew p = none)
    ∧ (∀ p fn : List Char, fileNameOf p = some fn →
        ((storePathNew p).isSome ↔ (33 < utf8Len fn ∧ fn.get? 32 = some '-')))
    ∧ (∀ p fn : List Char, fileNameOf p = some fn → 34 ≤ fn.length →
        fn.get? 32 = some '-' → (storePathNew p).isSome)
    ∧ (∀ (p fn : List Char) (sp : StorePath), storePathNew p = some sp →
        fileNameOf p = some fn → (∀ c ∈ fn, c.toNat < 128) →
        hashPart sp = some (fn.take 32) ∧ spName sp = some (fn.drop 33)) := by
  refine ⟨fun p h => storePathNew_noFileName h,
          fun p fn h => storePathNew_isSome_iff h,
          fun p fn h hlen hdash => ?_,
          fun p fn sp h hf hA => storePath_accessors_ascii h hf hA⟩
  rw [storePathNew_isSome_iff h]
  have := length_le_utf8Len fn
  exact ⟨by omega, hdash⟩

/-- C4, counterexample to the claim as stated: this path's file name has 33
characters (shorter than 34), yet `StorePath::new` accepts it — the length
check is on UTF-8 bytes, of which there are 34 here. -/
theorem storePath_validation_claim_counterexample :
    (fileNameOf pathNonAscii).map List.length = some 33
    ∧ utf8Len ('é' :: List.replicate 31 'a' ++ ['-']) = 34
    ∧ (storePathNew pathNonAscii).isSome = true := by
  refine ⟨by decide, by decide, by decide⟩

/-- C4, witness: the amended theorem applied to a store path from the
repository's tests. -/
theorem storePath_validation_witness :
    (storePathNew pathHello).isSome
    ∧ hashPart ⟨pathHello⟩ = some "ac8da0sqpg4pyhzyr0qgl26d5dnpn7qp".data
    ∧ spName ⟨pathHello⟩ = some "hello-2.10.tar.gz".data := by
  have hnew : storePathNew pathHello = some ⟨pathHello⟩ := by decide
  have hacc := (storePath_validation_correct.2.2.2 pathHello
    "ac8da0sqpg4pyhzyr0qgl26d5dnpn7qp-hello-2.10.tar.gz".data ⟨pathHello⟩
    hnew (by decide) (by decide))
  refine ⟨by rw [hnew]; rfl, ?_, ?_⟩
  · rw [hacc.1]; rfl
  · rw [hacc.2]; rfl

/-! ## C2: the content-addressed output placeholder -/

/-- C2.  `Placeholder::ca_output(p, o)` hashes
`nix-upstream-output:<hash_part(p)>:<n'>` with SHA-256, where `n'` is `p`'s
name with a trailing `.drv` stripped, left alone for output `out` and
suffixed `-o` otherwise; and on the store path
`/nix/store/g1w7hy3qg1w7hy3qg1w7hy3qg1w7hy3q-foo.drv` with output `out` it
renders to `/0c6rn30q4frawknapgwq386zq358m8r6msvywcvc89n6m5p2dgbz`. -/
theorem caOutput_correct :
    (∀ (sp : StorePath) (o n h : List Char), spName sp = some n → hashPart sp = some h →
      caOutput sp o = some (sha256 (utf8Bytes
        ("nix-upstream-output:".data ++ h ++ ':' :: outputPathName (stripDrv n) o))))
    ∧ (∀ n : List Char, outputPathName n "out".data = n)
    ∧ (∀ n o : List Char, o ≠ "out".data → outputPathName n o = n ++ '-' :: o)
    ∧ ((storePathNew "/nix/store/g1w7hy3qg1w7hy3qg1w7hy3qg1w7hy3q-foo.drv".data).bind
        (fun sp => (caOutput sp "out".data).map renderStr)
        = some "/0c6rn30q4frawknapgwq386zq358m8r6msvywcvc89n6m5p2dgbz") := by
  refine ⟨?_, ?_, ?_, by decide⟩
  · intro sp o n h hn hh
    unfold caOutput
    rw [hn, hh]
  · intro n
    unfold outputPathName
    rw [if_pos rfl]
  · intro n o ho
    unfold outputPathName
    rw [if_neg ho]

/-- C2, witness: the formula part applied to a concrete store path. -/
theorem caOutput_witness :
    caOutput ⟨pathShortDrv⟩ "out".data = some (sha256 (utf8Bytes
      ("nix-upstream-output:".data ++ "aaaaaaaaaaaaaaaaaaaaaaaaaaaaaaaa".data ++
        ':' :: outputPathName (stripDrv "x.drv".data) "out".data))) :=
  caOutput_correct.1 ⟨pathShortDrv⟩ "out".data "x.drv".data
    "aaaaaaaaaaaaaaaaaaaaaaaaaaaaaaaa".data (by decide) (by decide)

/-! ## C3: the dynamic output placeholder -/

theorem foldl_set_xor (l : List (Nat × Nat)) :
    ∀ (acc : List Nat), acc.length = 20 → ∀ j, j < 20 →
    ((l.foldl (fun a p => a.set (p.1 % 20) (a.getD (p.1 % 20) 0 ^^^ p.2)) acc).getD j 0
      = (l.filter (fun p => p.1 % 20 == j)).foldl (fun a p => a ^^^ p.2) (acc.getD j 0)
    ∧ (l.foldl (fun a p => a.set (p.1 % 20) (a.getD (p.1 % 20) 0 ^^^ p.2)) acc).length = 20) := by
  induction l with
  | nil => intro acc hlen j hj; exact ⟨rfl, hlen⟩
  | cons p l ih =>
    intro acc hlen j hj
    have hset : (acc.set (p.1 % 20) (acc.getD (p.1 % 20) 0 ^^^ p.2)).length = 20 := by
      rw [List.length_set]; exact hlen
    obtain ⟨ih1, ih2⟩ := ih _ hset j hj
    constructor
    · simp only [List.foldl_cons, List.filter_cons]
      by_cases hpj : p.1 % 20 = j
      · rw [if_pos (by simpa using hpj)]
        rw [ih1]
        simp only [List.foldl_cons]
        congr 1
        subst hpj
        rw [List.getD_eq_getElem?_getD, List.getElem?_set, if_pos rfl,
          if_pos (by omega)]
        rfl
      · rw [if_neg (by simpa using hpj)]
        rw [ih1]
        congr 1
        rw [List.getD_eq_getElem?_getD, List.getElem?_set, if_neg hpj,
          ← List.getD_eq_getElem?_getD]
    · simp only [List.foldl_cons]
      exact ih2

/-- C3.  `Placeholder::dynamic_output(p, o)` hashes
`nix-computed-output:<nix-base32(compress(p.digest, 20))>:<o>` with SHA-256;
`compress` XOR-folds the digest bytes into a 20-byte buffer at position
`index mod 20`; and composing `ca_output` (on the base store path
`/nix/store/g1w7hy3qg1w7hy3qg1w7hy3qg1w7hy3q-foo.drv.drv`, output `out`) with
`dynamic_output` (output `out`) renders to
`/0gn6agqxjyyalf0dpihgyf49xq5hqxgw100f0wydnj6yqrhqsb3w`. -/
theorem dynamicOutput_correct :
    (∀ (h : List Nat) (o : List Char), dynamicOutput h o = sha256 (utf8Bytes
      ("nix-computed-output:".data ++ nixBase32 (compressHash h 20) ++ ':' :: o)))
    ∧ (∀ (h : List Nat) (j : Nat), h ≠ [] → j < 20 →
        (compressHash h 20).length = 20 ∧
        (compressHash h 20).getD j 0
          = (h.enum.filter (fun p => p.1 % 20 == j)).foldl (fun a p => a ^^^ p.2) 0)
    ∧ ((storePathNew "/nix/store/g1w7hy3qg1w7hy3qg1w7hy3qg1w7hy3q-foo.drv.drv".data).bind
        (fun sp => (caOutput sp "out".data).map (fun q => renderStr (dynamicOutput q "out".data)))
        = some "/0gn6agqxjyyalf0dpihgyf49xq5hqxgw100f0wydnj6yqrhqsb3w") := by
  refine ⟨fun h o => rfl, ?_, by decide⟩
  intro h j hne hj
  unfold compressHash
  rw [if_neg hne]
  have hrep : (List.replicate 20 (0 : Nat)).length = 20 := by simp
  obtain ⟨h1, h2⟩ := foldl_set_xor h.enum (List.replicate 20 0) hrep j hj
  refine ⟨h2, ?_⟩
  rw [h1]
  congr 1
  interval_cases j <;> rfl

/-- C3, witness: the compress characterization applied at a concrete digest
and position. -/
theorem dynamicOutput_witness :
    (compressHash (List.range 25) 20).length = 20
    ∧ (compressHash (List.range 25) 20).getD 3 0
        = ((List.range 25).enum.filter (fun p => p.1 % 20 == 3)).foldl
            (fun a p => a ^^^ p.2) 0 :=
  dynamicOutput_correct.2.1 (List.range 25) 3 (by decide) (by decide)

/-! ## Helper lemmas: split, digest length, base-32 alphabet -/

theorem splitOnChar_ne_nil (sep : Char) (l : List Char) : splitOnChar sep l ≠ [] := by
  cases l with
  | nil => simp [splitOnChar]
  | cons c rest =>
    rw [splitOnChar]
    split
    · simp
    · split <;> simp

theorem splitOnChar_length (sep : Char) (l : List Char) :
    (splitOnChar sep l).length = l.count sep + 1 := by
  induction l with
  | nil => rfl
  | cons c rest ih =>
    rw [splitOnChar]
    by_cases hc : c = sep
    · rw [if_pos hc]
      simp only [List.length_cons, ih]
      subst hc
      rw [List.count_cons_self]
    · rw [if_neg hc]
      cases hr : splitOnChar sep rest with
      | nil => exact absurd hr (splitOnChar_ne_nil sep rest)
      | cons h t =>
        simp only [List.length_cons]
        rw [← List.length_cons h t, ← hr, ih]
        rw [List.count_cons_of_ne (Ne.symm hc)]

theorem splitOnChar_no_sep {sep : Char} {l : List Char} (h : sep ∉ l) :
    splitOnChar sep l = [l] := by
  induction l with
  | nil => rfl
  | cons c rest ih =>
    rw [splitOnChar]
    rw [if_neg (fun hc => h (by simp [hc]))]
    rw [ih (fun hm => h (by simp [hm]))]

theorem splitOnChar_append_sep {sep : Char} {a : List Char} (b : List Char) (h : sep ∉ a) :
    splitOnChar sep (a ++ sep :: b) = a :: splitOnChar sep b := by
  induction a with
  | nil =>
    simp only [List.nil_append]
    rw [splitOnChar]
    rw [if_pos rfl]
  | cons c rest ih =>
    simp only [List.cons_append]
    rw [splitOnChar]
    rw [if_neg (fun hc => h (by simp [hc]))]
    rw [ih (fun hm => h (by simp [hm]))]

theorem beBytes_length (k n : Nat) : (beBytes k n).length = k := by
  induction k generalizing n with
  | zero => rfl
  | succ k ih => simp [beBytes, ih]

theorem flatMap_beBytes4_length (l : List Nat) : (l.flatMap (beBytes 4)).length = 4 * l.length := by
  induction l with
  | nil => rfl
  | cons x l ih =>
    simp only [List.flatMap_cons, List.length_append, ih, beBytes_length, List.length_cons]
    ring

theorem compressBlock_length (hs block : List Nat) : (compressBlock hs block).length = 8 := rfl

theorem shaBlocks_length (n : Nat) :
    ∀ hs ws : List Nat, hs.length = 8 → (shaBlocks n hs ws).length = 8 := by
  induction n with
  | zero => intro hs ws h; exact h
  | succ n ih => intro hs ws h; exact ih _ _ (compressBlock_length hs (ws.take 16))

/-- SHA-256 digests are 32 bytes. -/
theorem sha256_length (msg : List Nat) : (sha256 msg).length = 32 := by
  have h8 : (sha256H0 : List Nat).length = 8 := rfl
  simp only [sha256]
  rw [flatMap_beBytes4_length, shaBlocks_length _ _ _ h8]

theorem nixB32Alphabet_getD_mem (i : Nat) : nixB32Alphabet.getD i '0' ∈ nixB32Alphabet := by
  rw [List.getD_eq_getElem?_getD]
  by_cases h : i < nixB32Alphabet.length
  · rw [List.getElem?_eq_getElem h]
    exact List.getElem_mem h
  · rw [List.getElem?_eq_none (by omega)]
    decide

theorem nixBase32_length (bytes : List Nat) :
    (nixBase32 bytes).length = (bytes.length * 8 - 1) / 5 + 1 := by
  simp [nixBase32]

theorem nixBase32_mem {bytes : List Nat} {c : Char} (h : c ∈ nixBase32 bytes) :
    c ∈ nixB32Alphabet := by
  unfold nixBase32 at h
  obtain ⟨n, _, hc⟩ := List.mem_map.mp h
  rw [← hc]
  exact nixB32Alphabet_getD_mem _

theorem nixB32Alphabet_chars :
    ∀ c ∈ nixB32Alphabet, ¬ (c = '-' ∨ c = ':' ∨ c = '/' ∨ c = '.') := by decide

theorem colon_not_mem_render (hsh : List Nat) : ':' ∉ renderPlaceholder hsh := by
  intro hmem
  unfold renderPlaceholder at hmem
  rcases List.mem_cons.mp hmem with h | h
  · cases h
  · exact nixB32Alphabet_chars ':' (nixBase32_mem h) (by simp)

/-! ## C5: the DerivedFile wire encoding -/

/-- C5 (amended).  For an `Opaque` derived file whose store path and source
contain no `:`, `to_encoded` produces `<path>:<source>` with a single colon,
`from_encoded` decodes it back to an equal derived file, and re-encoding
yields the original string; and `from_encoded` rejects every string that does
not split into exactly two parts on `:` (equivalently, whose colon count is
not one).  When the path or source does contain `:`, the encoding has more
than one colon and decoding it fails (see the counterexample). -/
theorem derivedFile_roundtrip :
    (∀ (p src : List Char) (sp : StorePath), storePathNew p = some sp →
      ':' ∉ p → ':' ∉ src →
      toEncoded ⟨.opaq sp, src⟩ = some (p ++ ':' :: src)
      ∧ (p ++ ':' :: src).count ':' = 1
      ∧ fromEncoded (p ++ ':' :: src) = some ⟨.opaq sp, src⟩)
    ∧ (∀ s : List Char, s.count ':' ≠ 1 → fromEncoded s = none) := by
  constructor
  · intro p src sp hsp hp hsrc
    obtain ⟨hpath, _⟩ := storePathNew_some hsp
    refine ⟨?_, ?_, ?_⟩
    · have h1 : toEncoded ⟨.opaq sp, src⟩ = some (sp.path ++ ':' :: src) := rfl
      rw [h1, hpath]
    · rw [List.count_append, List.count_cons_self,
        List.count_eq_zero.mpr hp, List.count_eq_zero.mpr hsrc]
    · unfold fromEncoded
      rw [splitOnChar_append_sep src hp, splitOnChar_no_sep hsrc]
      simp only [List.length_cons, List.length_nil, if_pos rfl]
      rw [show ([p, src].getD 0 [] : List Char) = p from rfl, hsp]
      rfl
  · intro s hcount
    unfold fromEncoded
    rw [if_neg (by rw [splitOnChar_length]; omega)]

/-- C5, counterexample to the claim as stated: an `Opaque` derived file whose
source contains a colon encodes with two colons, and decoding the encoding
fails instead of returning an equal derived file. -/
theorem derivedFile_roundtrip_counterexample :
    toEncoded ⟨.opaq ⟨pathShort⟩, "a:b".data⟩ = some (pathShort ++ ':' :: "a:b".data)
    ∧ (pathShort ++ ':' :: "a:b".data).count ':' = 2
    ∧ fromEncoded (pathShort ++ ':' :: "a:b".data) = none := by
  refine ⟨rfl, by decide, rfl⟩

/-- C5, witness: the round trip at a concrete colon-free path and source. -/
theorem derivedFile_roundtrip_witness :
    toEncoded ⟨.opaq ⟨pathShort⟩, "src/foo.c".data⟩
      = some (pathShort ++ ':' :: "src/foo.c".data)
    ∧ (pathShort ++ ':' :: "src/foo.c".data).count ':' = 1
    ∧ fromEncoded (pathShort ++ ':' :: "src/foo.c".data)
      = some ⟨.opaq ⟨pathShort⟩, "src/foo.c".data⟩ :=
  derivedFile_roundtrip.1 pathShort "src/foo.c".data ⟨pathShort⟩
    (by decide) (by decide) (by decide)

/-! ## C10: decoding always yields Opaque; Built encodings cannot decode -/

theorem fileNameOf_render {cs : List Char} (hne : cs ≠ [])
    (hmem : ∀ c ∈ cs, c ∈ nixB32Alphabet) :
    fileNameOf ('/' :: cs) = some cs := by
  have hslash : '/' ∉ cs := fun hin => nixB32Alphabet_chars _ (hmem _ hin) (by simp)
  have hcs1 : ¬ (cs = [] ∨ cs = ['.']) := by
    rintro (h | h)
    · exact hne h
    · exact nixB32Alphabet_chars '.' (hmem '.' (by simp [h])) (by simp)
  have hdd : ¬ cs = ['.', '.'] := by
    intro h
    exact nixB32Alphabet_chars '.' (hmem '.' (by simp [h])) (by simp)
  have hdot : ¬ cs = ['.'] := fun h => hcs1 (Or.inr h)
  unfold fileNameOf
  rw [splitOnChar]
  rw [if_pos rfl, splitOnChar_no_sep hslash]
  simp [hne, hdot, hdd]

theorem storePathNew_render {hsh : List Nat} (h32 : hsh.length = 32) :
    storePathNew (renderPlaceholder hsh) = none := by
  have hlen : (nixBase32 hsh).length = 52 := by
    rw [nixBase32_length, h32]
  have hne : nixBase32 hsh ≠ [] := by
    intro h
    rw [h] at hlen
    cases hlen
  have hfn : fileNameOf (renderPlaceholder hsh) = some (nixBase32 hsh) :=
    fileNameOf_render hne (fun c hc => nixBase32_mem hc)
  unfold storePathNew
  rw [hfn]
  dsimp only
  rw [if_pos]
  right
  cases hc : (nixBase32 hsh).get? 32 with
  | none =>
    rw [List.get?_eq_none] at hc
    omega
  | some c =>
    have hcin : c ∈ nixBase32 hsh := List.get?_mem hc
    intro heq
    cases heq
    exact nixB32Alphabet_chars '-' (nixBase32_mem hcin) (by simp)

/-- C10.  `from_encoded` can only produce the `Opaque` variant, and the
encoding of every `Built` derived file fails to decode: its input projection
is a rendered placeholder `/<52 base-32 chars>` whose file name has no dash
at index 32, so the store-path revalidation inside `from_encoded` rejects
it.  Encode-then-decode is therefore the identity only on (colon-free)
`Opaque` derived files. -/
theorem fromEncoded_opaque_only :
    (∀ (s : List Char) (df : DerivedFile), fromEncoded s = some df →
      ∃ sp, df.path = .opaq sp)
    ∧ (∀ (drv : StorePath) (out src e : List Char),
        toEncoded ⟨.built drv out, src⟩ = some e → fromEncoded e = none) := by
  constructor
  · intro s df h
    simp only [fromEncoded] at h
    split at h
    · split at h
      · rename_i sp hsp
        cases h
        exact ⟨sp, rfl⟩
      · cases h
    · cases h
  · intro drv out src e he
    have hform : toEncoded ⟨.built drv out, src⟩
        = ((caOutput drv out).map renderPlaceholder).map (fun inp => inp ++ ':' :: src) := rfl
    rw [hform] at he
    cases hca : caOutput drv out with
    | none =>
      rw [hca] at he
      cases he
    | some hsh =>
      rw [hca] at he
      replace he : renderPlaceholder hsh ++ ':' :: src = e := Option.some.inj he
      have h32 : hsh.length = 32 := by
        unfold caOutput at hca
        split at hca
        · rw [Option.some.injEq] at hca
          rw [← hca]
          exact sha256_length _
        · cases hca
      have hparts : splitOnChar ':' e = renderPlaceholder hsh :: splitOnChar ':' src := by
        rw [← he]
        exact splitOnChar_append_sep src (colon_not_mem_render hsh)
      unfold fromEncoded
      rw [hparts]
      by_cases hlen : (splitOnChar ':' src).length = 1
      · rw [if_pos (by simp [hlen])]
        rw [show ((renderPlaceholder hsh :: splitOnChar ':' src).getD 0 [] : List Char)
          = renderPlaceholder hsh from rfl]
        rw [storePathNew_render h32]
      · rw [if_neg (by simp [hlen])]

/-- C10, witness: a concrete decode yields `Opaque`, and the encoding of a
concrete `Built` derived file fails to decode. -/
theorem fromEncoded_opaque_only_witness :
    (∃ sp, (DerivedFile.mk (.opaq ⟨pathShort⟩) "s.c".data).path = .opaq sp)
    ∧ fromEncoded
        ((toEncoded ⟨.built ⟨pathShortDrv⟩ "out".data, "m.o".data⟩).getD []) = none :=
  ⟨fromEncoded_opaque_only.1 (pathShort ++ ':' :: "s.c".data)
      ⟨.opaq ⟨pathShort⟩, "s.c".data⟩ (by decide),
   fromEncoded_opaque_only.2 ⟨pathShortDrv⟩ "out".data "m.o".data
      ((toEncoded ⟨.built ⟨pathShortDrv⟩ "out".data, "m.o".data⟩).getD []) (by rfl)⟩

/-! ## C1: derivation JSON determinism -/

/-- C1 (amended).  `to_json` is a pure function of the `Derivation` value
including the iteration orders of its unordered collections: two derivations
whose field lists agree (same `env` and `inputSrcs` iteration order)
serialize to identical bytes.  Byte-identity across runs does not follow,
because `env` and `inputSrcs` are a `HashMap`/`HashSet` whose iteration
order is unspecified and varies between processes: permuting them changes
the bytes (see the counterexample). -/
theorem toJson_deterministic :
    ∀ d1 d2 : Derivation, d1.name = d2.name → d1.system = d2.system →
      d1.builder = d2.builder → d1.args = d2.args → d1.env = d2.env →
      d1.inputDrvs = d2.inputDrvs → d1.inputSrcs = d2.inputSrcs →
      d1.outputs = d2.outputs → toJson d1 = toJson d2 := by
  intro d1 d2 h1 h2 h3 h4 h5 h6 h7 h8
  cases d1
  cases d2
  cases h1
  cases h2
  cases h3
  cases h4
  cases h5
  cases h6
  cases h7
  cases h8
  rfl

/-- C1, witness: the amended determinism at a concrete derivation. -/
theorem toJson_deterministic_witness : toJson drvSrcsAB = toJson drvSrcsAB :=
  toJson_deterministic drvSrcsAB drvSrcsAB rfl rfl rfl rfl rfl rfl rfl rfl

/-- C1, counterexample to the claim as stated: two derivations that are equal
as data — every ordered field identical and `inputSrcs` the same set (a
permutation, as it would be when the `HashSet` iterates in a different order
in a second run) — serialize to different bytes. -/
theorem toJson_iteration_order_counterexample :
    drvSrcsAB.inputSrcs.Perm drvSrcsBA.inputSrcs
    ∧ drvSrcsAB.name = drvSrcsBA.name
    ∧ drvSrcsAB.env = drvSrcsBA.env
    ∧ toJson drvSrcsAB ≠ toJson drvSrcsBA := by
  refine ⟨by decide, rfl, rfl, by decide⟩

/-! ## C7: dynamic-output addition on the derivation builder -/

theorem extendIDrv_lookup (path : String) (outs : List String) :
    ∀ l : List (String × InputDrv), ∃ v : InputDrv,
      List.lookup path (extendIDrv l path outs) = some v := by
  intro l
  induction l with
  | nil =>
    refine ⟨⟨outs, []⟩, ?_⟩
    simp [extendIDrv, List.lookup]
  | cons p rest ih =>
    obtain ⟨k, v⟩ := p
    by_cases hk : k = path
    · refine ⟨⟨v.outputs ++ outs, v.dynamicOutputs⟩, ?_⟩
      unfold extendIDrv
      rw [if_pos hk]
      subst hk
      simp [List.lookup]
    · obtain ⟨w, hw⟩ := ih
      refine ⟨w, ?_⟩
      unfold extendIDrv
      rw [if_neg hk]
      simp only [List.lookup]
      rw [beq_eq_false_iff_ne.mpr (fun h => hk h.symm)]
      exact hw

/-- Look up after updating the matching entry. -/
theorem updateIDrv_lookup (k : String) (f : InputDrv → InputDrv) :
    ∀ (l : List (String × InputDrv)) (v : InputDrv),
      List.lookup k l = some v → List.lookup k (updateIDrv l k f) = some (f v) := by
  intro l
  induction l with
  | nil => intro v hv; cases hv
  | cons p rest ih =>
    obtain ⟨k1, v1⟩ := p
    intro v hv
    by_cases hk : k1 = k
    · subst hk
      rw [List.lookup, beq_self_eq_true] at hv
      cases hv
      unfold updateIDrv
      rw [List.map_cons]
      rw [show (if ((k1, v1) : String × InputDrv).1 = k1
            then (((k1, v1) : String × InputDrv).1, f ((k1, v1) : String × InputDrv).2)
            else ((k1, v1) : String × InputDrv)) = (k1, f v1) from by simp]
      rw [List.lookup, beq_self_eq_true]
    · rw [List.lookup, beq_eq_false_iff_ne.mpr (fun h => hk h.symm)] at hv
      unfold updateIDrv
      simp only [List.map_cons, if_neg hk]
      rw [List.lookup, beq_eq_false_iff_ne.mpr (fun h => hk h.symm)]
      exact ih v hv

theorem insertAssoc_lookup (o : String) (v : DynOutput) :
    ∀ l : List (String × DynOutput), List.lookup o (insertAssoc l o v) = some v := by
  intro l
  induction l with
  | nil => simp [insertAssoc, List.lookup]
  | cons p rest ih =>
    obtain ⟨k1, v1⟩ := p
    by_cases hk : k1 = o
    · unfold insertAssoc
      rw [if_pos hk]
      simp [List.lookup]
    · unfold insertAssoc
      rw [if_neg hk]
      rw [List.lookup, beq_eq_false_iff_ne.mpr (fun h => hk h.symm)]
      exact ih

/-- C7 (amended).  `add_dynamic_output` always succeeds: it first adds the
input drv entry when absent (`add_input_drv(path, [])`), so the subsequent
lookup cannot fail and the `Input derivation not found` (`MissingInputDrv`)
error path is unreachable; afterwards `inputDrvs` holds the drv path with
the named dynamic output recorded under it. -/
theorem addDynamicOutput_correct :
    ∀ (d : Derivation) (drvPath outputName : String) (outs : List String),
      ∃ d' : Derivation, addDynamicOutput d drvPath outputName outs = .ok d'
        ∧ ∃ e : InputDrv, List.lookup drvPath d'.inputDrvs = some e
            ∧ List.lookup outputName e.dynamicOutputs = some (.mk outs []) := by
  intro d drvPath outputName outs
  obtain ⟨v, hv⟩ := extendIDrv_lookup drvPath [] d.inputDrvs
  have hv2 : List.lookup drvPath (addInputDrv d drvPath []).inputDrvs = some v := hv
  simp only [addDynamicOutput]
  rw [hv2]
  refine ⟨_, rfl, ⟨v.outputs, insertAssoc v.dynamicOutputs outputName (.mk outs [])⟩, ?_, ?_⟩
  · exact updateIDrv_lookup drvPath
      (fun idrv => ⟨idrv.outputs, insertAssoc idrv.dynamicOutputs outputName (.mk outs [])⟩)
      (addInputDrv d drvPath []).inputDrvs v hv2
  · exact insertAssoc_lookup outputName _ _

/-- C7, counterexample to the error clause of the claim: on a derivation with
no input drvs at all, a dynamic-output request succeeds instead of reporting
`MissingInputDrv`. -/
theorem addDynamicOutput_no_missing_error :
    List.lookup "/nix/store/aaaaaaaaaaaaaaaaaaaaaaaaaaaaaaaa-x.drv"
        (derivationNew "d" "s" "b").inputDrvs = none
    ∧ (addDynamicOutput (derivationNew "d" "s" "b")
        "/nix/store/aaaaaaaaaaaaaaaaaaaaaaaaaaaaaaaa-x.drv" "out" ["out"]).isOk = true :=
  ⟨rfl, rfl⟩

/-! ## C6: input-file selection in compiler command parsing -/

theorem getLast?_cons_or {α : Type} (a : α) (l : List α) :
    (a :: l).getLast? = l.getLast?.or (some a) := by
  induction l generalizing a with
  | nil => rfl
  | cons b t ih =>
    rw [List.getLast?_cons_cons, ih b]
    cases h : t.getLast? with
    | none => simp [List.getLast?_cons_cons, ih, h]
    | some c => simp [List.getLast?_cons_cons, ih, h]

theorem some_or (a : α) (x : Option α) : (some a).or x = some a := rfl

theorem or_none (x : Option α) : x.or none = x := by cases x <;> rfl

theorem procArgs_inputFile_aux :
    ∀ (n : Nat) (l : List String), l.length ≤ n → ∀ (st : ProcSt),
      (procArgs l st).inputFile = ((inputCandidates l).getLast?).or st.inputFile := by
  intro n
  induction n with
  | zero =>
    intro l hl st
    match l with
    | [] => simp [procArgs, inputCandidates, Option.none_or]
    | a :: r => simp at hl
  | succ n ih =>
    intro l hl st
    match l with
    | [] => simp [procArgs, inputCandidates, Option.none_or]
    | [arg] =>
      simp only [procArgs, inputCandidates]
      split_ifs <;>
        simp_all [procArgs, inputCandidates, getLast?_cons_or, Option.or_assoc,
          Option.none_or, some_or, or_none]
    | arg :: next :: rest2 =>
      have hl2 : rest2.length ≤ n := by simp at hl; omega
      have hl1 : (next :: rest2).length ≤ n := by simp at hl ⊢; omega
      have ihA := fun st => ih (next :: rest2) hl1 st
      have ihB := fun st => ih rest2 hl2 st
      simp only [procArgs, inputCandidates]
      split_ifs <;>
        simp_all [getLast?_cons_or, Option.or_assoc, Option.none_or, some_or, or_none]

/-- The input file the processing loop ends with is the last candidate, with
the initial value as fallback. -/
theorem procArgs_inputFile :
    ∀ (l : List String) (st : ProcSt),
      (procArgs l st).inputFile = ((inputCandidates l).getLast?).or st.inputFile :=
  fun l st => procArgs_inputFile_aux l.length l le_rfl st

/-- C6 (amended).  For every command line accepted by `create_deps_command`,
the input file appended to the generated depfile command is the *last*
argument that does not start with `-`, contains `.`, and is not consumed as
the operand of the argument before it (only a bare `-I`, `-isystem` or `-D`
and an exact `-o`, `-MF` or `-MQ` with an argument after it consume one):
the loop overwrites its input-file slot on every such argument, so with two
or more candidates the final one in command-line order wins. -/
theorem createDeps_input_is_last :
    ∀ (args : List String) (config : DepsConfig) (cmd : Cmd),
      createDepsCommand args config = .ok cmd →
      ∃ inp, (inputCandidates args.tail).getLast? = some inp
        ∧ cmd.args.getLast? = some inp := by
  intro args config cmd h
  cases args with
  | nil => cases h
  | cons compiler rest =>
    rw [createDepsCommand] at h
    rw [show (inputCandidates (compiler :: rest).tail) = inputCandidates rest from rfl]
    split at h
    · cases h
    · cases hinput : (procArgs rest ⟨[], none, [], none⟩).inputFile with
      | none =>
        rw [hinput] at h
        cases h
      | some input =>
        rw [hinput] at h
        cases h
        refine ⟨input, ?_, ?_⟩
        · have hp := procArgs_inputFile rest ⟨[], none, [], none⟩
          rw [hinput] at hp
          rw [← or_none (inputCandidates rest).getLast?]
          exact hp.symm
        · simp only [List.getLast?_append]
          rfl

/-- C6, counterexample to the claim as stated: with the two candidates `a.c`
and `b.c`, the first is `a.c` but the generated command ends with `b.c`. -/
theorem createDeps_first_input_counterexample :
    (inputCandidates ["a.c", "b.c"]).head? = some "a.c"
    ∧ createDepsCommand ["g++", "a.c", "b.c"] depsConfigDefault
        = .ok ⟨"g++", ["-MM", "-MF", "deps.d", "b.c"]⟩
    ∧ ("b.c" : String) ≠ "a.c" :=
  ⟨rfl, rfl, by decide⟩

/-- C6, witness: the amended theorem at the two-candidate command line. -/
theorem createDeps_input_is_last_witness :
    ∃ inp, (inputCandidates ["a.c", "b.c"]).getLast? = some inp
      ∧ (Cmd.mk "g++" ["-MM", "-MF", "deps.d", "b.c"]).args.getLast? = some inp :=
  createDeps_input_is_last ["g++", "a.c", "b.c"] depsConfigDefault
    ⟨"g++", ["-MM", "-MF", "deps.d", "b.c"]⟩ rfl

/-- Validation: scenario A of the specification, the repository's own
first test case. -/
theorem createDeps_scenarioA :
    createDepsCommand
      ["g++", "-Iinclude", "-I.", "-Wall", "-O2", "-std=c++14", "-DDEBUG",
       "-o", "output.o", "-c", "src/main.cpp"] depsConfigDefault
      = .ok ⟨"g++", ["-Iinclude", "-I.", "-std=c++14", "-DDEBUG",
                     "-MM", "-MF", "deps.d", "src/main.cpp"]⟩ := rfl

/-- Validation: the `-MQ`/`-MF` operand-skipping test case of the source. -/
theorem createDeps_skip_operands :
    createDepsCommand ["g++", "-c", "file.cpp", "-MQ", "file.o", "-MF", "file.d"]
      depsConfigDefault = .ok ⟨"g++", ["-MM", "-MF", "deps.d", "file.cpp"]⟩ := rfl

/-! ## C8: the include BFS -/

section BFSProofs

variable {α : Type} [DecidableEq α]

theorem foldl_bfsInsert (l : List α) :
    ∀ v q r : List α,
      List.foldl bfsInsert ⟨v, q, r⟩ l
        = ⟨(freshOnly v l).reverse ++ v, q ++ freshOnly v l, r ++ freshOnly v l⟩ := by
  induction l with
  | nil => intro v q r; simp [freshOnly]
  | cons a l ih =>
    intro v q r
    rw [List.foldl_cons]
    by_cases ha : a ∈ v
    · rw [show bfsInsert ⟨v, q, r⟩ a = ⟨v, q, r⟩ from by simp [bfsInsert, ha]]
      rw [ih, freshOnly, if_pos ha]
    · rw [show bfsInsert ⟨v, q, r⟩ a = ⟨a :: v, q ++ [a], r ++ [a]⟩ from by
        simp [bfsInsert, ha]]
      rw [ih, freshOnly, if_neg ha]
      simp

theorem freshOnly_mem (l : List α) :
    ∀ (v : List α) (x : α), x ∈ freshOnly v l ↔ x ∈ l ∧ x ∉ v := by
  induction l with
  | nil => intro v x; simp [freshOnly]
  | cons a l ih =>
    intro v x
    unfold freshOnly
    by_cases ha : a ∈ v
    · rw [if_pos ha, ih]
      constructor
      · rintro ⟨hx, hv⟩
        exact ⟨by simp [hx], hv⟩
      · rintro ⟨hx, hv⟩
        rcases List.mem_cons.mp hx with rfl | hx
        · exact absurd ha hv
        · exact ⟨hx, hv⟩
    · rw [if_neg ha]
      constructor
      · intro hx
        rcases List.mem_cons.mp hx with rfl | hx
        · exact ⟨by simp, ha⟩
        · obtain ⟨h1, h2⟩ := (ih _ _).mp hx
          exact ⟨by simp [h1], fun hv => h2 (by simp [hv])⟩
      · rintro ⟨hx, hv⟩
        rcases List.mem_cons.mp hx with rfl | hx
        · simp
        · by_cases hxa : x = a
          · simp [hxa]
          · refine List.mem_cons.mpr (Or.inr ((ih _ _).mpr ⟨hx, ?_⟩))
            intro hm
            rcases List.mem_cons.mp hm with h | h
            · exact hxa h
            · exact hv h

theorem freshOnly_nodup (l : List α) : ∀ v : List α, (freshOnly v l).Nodup := by
  induction l with
  | nil => intro v; simp [freshOnly]
  | cons a l ih =>
    intro v
    unfold freshOnly
    by_cases ha : a ∈ v
    · rw [if_pos ha]
      exact ih v
    · rw [if_neg ha]
      refine List.nodup_cons.mpr ⟨?_, ih (a :: v)⟩
      intro hmem
      exact ((freshOnly_mem l (a :: v) a).mp hmem).2 (by simp)

theorem distLe_mono {scan : α → List α} {files : List α} :
    ∀ {m n : Nat} {x : α}, m ≤ n → distLe scan files m x → distLe scan files n x := by
  intro m n
  induction n with
  | zero => intro x hmn h; interval_cases m; exact h
  | succ n ih =>
    intro x hmn h
    rcases Nat.lt_or_ge m (n + 1) with hlt | hge
    · exact Or.inl (ih (by omega) h)
    · have : m = n + 1 := by omega
      subst this
      exact h

theorem step_closed {scan : α → List α} {files : List α} {k : Nat}
    (hsat : ∀ x, ¬ bfsExact scan files k x) :
    ∀ y x, distLe scan files k y → x ∈ scan y → distLe scan files k x := by
  intro y x hy hxy
  match k with
  | 0 => exact absurd ⟨hy, fun h => h⟩ (hsat y)
  | k + 1 =>
    have hlt : distLt scan files (k + 1) y := by
      by_contra hne
      exact hsat y ⟨hy, hne⟩
    exact Or.inr ⟨y, hlt, hxy⟩

theorem bfs_saturation {scan : α → List α} {files : List α} {k : Nat}
    (hsat : ∀ x, ¬ bfsExact scan files k x) :
    ∀ (m : Nat) (x : α), distLe scan files m x → distLe scan files k x := by
  intro m
  induction m with
  | zero => intro x h; exact distLe_mono (Nat.zero_le k) h
  | succ m ih =>
    intro x h
    rcases h with h | ⟨y, hy, hxy⟩
    · exact ih x h
    · exact step_closed hsat y x (ih y hy) hxy

theorem bfsStep_inv {scan : α → List α} {files : List α} {k : Nat}
    {ws : List (List α)} {st : BfsState α}
    (hinv : bfsInv scan files k ws st) :
    bfsInv scan files (k + 1) (ws ++ [(bfsStep scan st).queue]) (bfsStep scan st) := by
  obtain ⟨hvis, hres, hnodup, hqueue, hjoin, hlen, hwaves⟩ := hinv
  have hstep : bfsStep scan st
      = ⟨(freshOnly st.visited (st.queue.flatMap scan)).reverse ++ st.visited,
         freshOnly st.visited (st.queue.flatMap scan),
         st.result ++ freshOnly st.visited (st.queue.flatMap scan)⟩ := by
    unfold bfsStep
    exact foldl_bfsInsert _ _ _ _
  have hfresh : ∀ x, x ∈ freshOnly st.visited (st.queue.flatMap scan)
      ↔ bfsExact scan files (k + 1) x := by
    intro x
    rw [freshOnly_mem, List.mem_flatMap]
    constructor
    · rintro ⟨⟨y, hyq, hxy⟩, hnv⟩
      have hy := (hqueue y).mp hyq
      refine ⟨Or.inr ⟨y, hy.1, hxy⟩, ?_⟩
      show ¬ distLe scan files k x
      intro hk
      exact hnv ((hvis x).mpr hk)
    · rintro ⟨hle, hnlt⟩
      have hnk : ¬ distLe scan files k x := hnlt
      rcases hle with h | ⟨y, hy, hxy⟩
      · exact absurd h hnk
      · have hyex : bfsExact scan files k y := by
          refine ⟨hy, ?_⟩
          intro hylt
          match k, hylt with
          | k + 1, hylt => exact hnk (Or.inr ⟨y, hylt, hxy⟩)
        exact ⟨⟨y, (hqueue y).mpr hyex, hxy⟩, fun hv => hnk ((hvis x).mp hv)⟩
  rw [hstep]
  refine ⟨?_, ?_, ?_, ?_, ?_, ?_, ?_⟩
  · intro x
    simp only [List.mem_append, List.mem_reverse]
    rw [hfresh, hvis]
    constructor
    · rintro (h | h)
      · exact h.1
      · exact Or.inl h
    · intro h
      by_cases hk : distLe scan files k x
      · exact Or.inr hk
      · exact Or.inl ⟨h, hk⟩
  · intro x
    simp only [List.mem_append]
    rw [hfresh, hres]
    constructor
    · rintro (h | h)
      · exact Or.inl h
      · exact h.1
    · intro h
      by_cases hk : distLe scan files k x
      · exact Or.inl hk
      · exact Or.inr ⟨h, hk⟩
  · refine List.Nodup.append hnodup (freshOnly_nodup _ _) ?_
    intro x hx1 hx2
    have h1 := (hres x).mp hx1
    have h2 := ((hfresh x).mp hx2).2
    exact h2 h1
  · intro x
    exact hfresh x
  · rw [List.flatten_append, hjoin]
    simp
  · simp [hlen]
  · intro i x hx
    rcases Nat.lt_or_ge i ws.length with hi | hi
    · rw [List.getD_eq_getElem?_getD, List.getElem?_append, if_pos hi,
        ← List.getD_eq_getElem?_getD] at hx
      exact hwaves i x hx
    · rcases Nat.lt_or_ge i (ws.length + 1) with hi2 | hi2
      · have : i = ws.length := by omega
        subst this
        rw [List.getD_eq_getElem?_getD, List.getElem?_append_right hi,
          Nat.sub_self] at hx
        simp only [List.getElem?_cons_zero, Option.getD_some] at hx
        rw [hlen]
        exact (hfresh x).mp hx
      · rw [List.getD_eq_getElem?_getD, List.getElem?_eq_none (by simp; omega)] at hx
        cases hx

theorem bfs_done {scan : α → List α} {files : List α} {k : Nat}
    {ws : List (List α)} {st : BfsState α}
    (hinv : bfsInv scan files k ws st) (hempty : st.queue.isEmpty = true) :
    st.result.Nodup
    ∧ (∀ x, x ∈ st.result ↔ reachableInc scan files x)
    ∧ ∃ ws2 : List (List α), st.result = ws2.flatten
        ∧ ∀ i x, x ∈ ws2.getD i [] → bfsExact scan files i x := by
  obtain ⟨hvis, hres, hnodup, hqueue, hjoin, hlen, hwaves⟩ := hinv
  have hsat : ∀ x, ¬ bfsExact scan files k x := by
    intro x hx
    have := (hqueue x).mpr hx
    rw [List.isEmpty_iff] at hempty
    rw [hempty] at this
    cases this
  refine ⟨hnodup, ?_, ws, hjoin, hwaves⟩
  intro x
  rw [hres]
  constructor
  · intro h
    exact ⟨k, h⟩
  · rintro ⟨m, hm⟩
    exact bfs_saturation hsat m x hm

theorem bfsLoop_correct {scan : α → List α} {files : List α} :
    ∀ (fuel k : Nat) (ws : List (List α)) (st : BfsState α) (res : List α),
      bfsInv scan files k ws st → bfsLoop scan fuel st = some res →
      (res.Nodup
       ∧ (∀ x, x ∈ res ↔ reachableInc scan files x)
       ∧ ∃ ws2 : List (List α), res = ws2.flatten
           ∧ ∀ i x, x ∈ ws2.getD i [] → bfsExact scan files i x) := by
  intro fuel
  induction fuel with
  | zero =>
    intro k ws st res hinv hloop
    unfold bfsLoop at hloop
    split at hloop
    · cases hloop
      exact bfs_done hinv (by assumption)
    · cases hloop
  | succ fuel ih =>
    intro k ws st res hinv hloop
    unfold bfsLoop at hloop
    split at hloop
    · cases hloop
      exact bfs_done hinv (by assumption)
    · exact ih (k + 1) _ _ res (bfsStep_inv hinv) hloop

theorem bfsInit_inv (scan : α → List α) (files : List α) :
    bfsInv scan files 0 [freshOnly [] files] (bfsInit files) := by
  have hinit : bfsInit files
      = ⟨(freshOnly [] files).reverse ++ [], freshOnly [] files, freshOnly [] files⟩ := by
    unfold bfsInit
    exact foldl_bfsInsert _ _ _ _
  rw [hinit]
  have hmem : ∀ x, x ∈ freshOnly ([] : List α) files ↔ distLe scan files 0 x := by
    intro x
    rw [freshOnly_mem]
    show x ∈ files ∧ x ∉ ([] : List α) ↔ x ∈ files
    simp
  refine ⟨?_, hmem, freshOnly_nodup _ _, ?_, by simp, rfl, ?_⟩
  · intro x
    simp only [List.append_nil, List.mem_reverse]
    exact hmem x
  · intro x
    rw [hmem]
    unfold bfsExact distLt
    simp
  · intro i x hx
    match i with
    | 0 =>
      refine ⟨(hmem x).mp hx, ?_⟩
      unfold distLt
      simp
    | i + 1 =>
      rw [List.getD_eq_getElem?_getD] at hx
      rw [List.getElem?_eq_none (by simp)] at hx
      cases hx

/-- C8.  For every scan function (the per-file include resolution against the
given include directories) and every initial file list, when the BFS loop
terminates its result contains no duplicates, contains exactly the files
reachable from the initial set along resolved includes (in particular all the
initial files), and decomposes into breadth-first waves: wave `i` holds
exactly files at include-distance `i` from the initial set.  Since the result
is wave-concatenation and duplicate-free, each file is scanned in exactly one
wave. -/
theorem bfs_parse_includes_correct {α : Type} [DecidableEq α]
    (scan : α → List α) (fuel : Nat) (files res : List α)
    (h : bfsParseIncludes scan fuel files = some res) :
    res.Nodup
    ∧ (∀ f ∈ files, f ∈ res)
    ∧ (∀ x, x ∈ res ↔ reachableInc scan files x)
    ∧ ∃ ws : List (List α), res = ws.flatten
        ∧ ∀ i x, x ∈ ws.getD i [] →
            (distLe scan files i x ∧ ¬ distLt scan files i x) := by
  have hmain := bfsLoop_correct fuel 0 [freshOnly [] files] (bfsInit files) res
    (bfsInit_inv scan files) h
  obtain ⟨h1, h2, h3⟩ := hmain
  refine ⟨h1, ?_, h2, h3⟩
  intro f hf
  exact (h2 f).mpr ⟨0, hf⟩

/-- C8, witness: the theorem applied to a concrete scan with a cyclic include
graph. -/
theorem bfs_parse_includes_witness :
    ([0, 1, 2, 3] : List Nat).Nodup
    ∧ (∀ f ∈ [0], f ∈ [0, 1, 2, 3])
    ∧ (∀ x, x ∈ [0, 1, 2, 3] ↔ reachableInc scanEx [0] x) := by
  have h := bfs_parse_includes_correct scanEx 10 [0] [0, 1, 2, 3] (by rfl)
  exact ⟨h.1, h.2.1, h.2.2.1⟩

end BFSProofs

/-! ## C9: cycle detection in the scheduler's want walk -/

theorem posOf_some {fid : Nat} :
    ∀ {stack : List Nat} {i : Nat}, posOf fid stack = some i →
      i < stack.length ∧ (stack.drop i).head? = some fid := by
  intro stack
  induction stack with
  | nil => intro i h; cases h
  | cons x l ih =>
    intro i h
    unfold posOf at h
    split at h
    · rename_i hx
      cases h
      subst hx
      exact ⟨by simp, rfl⟩
    · cases hp : posOf fid l with
      | none => rw [hp] at h; cases h
      | some j =>
        rw [hp] at h
        cases h
        obtain ⟨h1, h2⟩ := ih hp
        show j + 1 < (x :: l).length ∧ ((x :: l).drop (j + 1)).head? = some fid
        refine ⟨by rw [List.length_cons]; omega, ?_⟩
        exact h2

theorem posOf_none {fid : Nat} :
    ∀ {stack : List Nat}, posOf fid stack = none ↔ fid ∉ stack := by
  intro stack
  induction stack with
  | nil => simp [posOf]
  | cons x l ih =>
    unfold posOf
    by_cases hx : x = fid
    · rw [if_pos hx]
      simp [hx]
    · rw [if_neg hx]
      constructor
      · intro h hm
        rcases List.mem_cons.mp hm with hm | hm
        · exact hx hm.symm
        · have hnone : posOf fid l = none := by
            cases hp : posOf fid l with
            | none => rfl
            | some j => rw [hp] at h; cases h
          exact (ih.mp hnone) hm
      · intro h
        have hnl : fid ∉ l := fun hm => h (by simp [hm])
        rw [ih.mpr hnl]
        rfl

theorem chain'_drop {R : Nat → Nat → Prop} :
    ∀ (n : Nat) (l : List Nat), List.Chain' R l → List.Chain' R (l.drop n) := by
  intro n
  induction n with
  | zero => intro l h; exact h
  | succ n ih =>
    intro l h
    match l with
    | [] => simp
    | a :: t =>
      rw [List.drop_succ_cons]
      exact ih t h.tail

theorem chain'_snoc {R : Nat → Nat → Prop} {l : List Nat} {a b : Nat}
    (h : List.Chain' R (l ++ [a])) (hab : R a b) :
    List.Chain' R ((l ++ [a]) ++ [b]) := by
  rw [List.chain'_append]
  refine ⟨h, List.chain'_singleton b, ?_⟩
  intro x hx y hy
  simp only [List.getLast?_append, List.getLast?_singleton] at hx
  simp only [List.head?_cons, Option.some.injEq] at hy
  cases hx
  cases hy
  exact hab

/-- A reported cycle chain is genuine: it is `stack[i..] ++ [fid]` for the
stack position `i` of `fid`, so with the stack invariant it is a closed
dependency walk. -/
theorem wantGo_cycle_sound (g : NGraph) :
    ∀ (fuel : Nat) (c : WCall) (chain : List Nat), callInv g c →
      wantGo g fuel c = .error (.cycle chain) → genuineCycle g chain := by
  intro fuel
  induction fuel with
  | zero =>
    intro c chain _ h
    cases h
  | succ fuel ih =>
    intro c chain hinv h
    match c with
    | .wfile st stack fid =>
      rw [wantGo] at h
      cases hp : posOf fid stack with
      | some i =>
        rw [hp] at h
        cases h
        obtain ⟨hi, hhead⟩ := posOf_some hp
        have hchain : List.Chain' (depU g) (stack.drop i ++ [fid]) := by
          have := chain'_drop i _ (show List.Chain' (depU g) (stack ++ [fid]) from hinv)
          rwa [List.drop_append_of_le_length (by omega)] at this
        refine ⟨?_, ?_, hchain⟩
        · have : 1 ≤ (stack.drop i).length := by
            rw [List.length_drop]
            omega
          simp only [List.length_append, List.length_cons, List.length_nil]
          omega
        · have hne : stack.drop i ≠ [] := by
            intro hcon
            rw [hcon] at hhead
            cases hhead
          rw [List.getLast?_append, List.getLast?_singleton]
          cases hdi : stack.drop i with
          | nil => exact absurd hdi hne
          | cons a t =>
            rw [hdi] at hhead
            simp only [List.head?_cons] at hhead ⊢
            exact hhead
      | none =>
        rw [hp] at h
        cases hin : (fileOf g fid).input with
        | none => rw [hin] at h; cases h
        | some bid =>
          rw [hin] at h
          dsimp only at h
          have hinv2 : callInv g (.wbuild st (stack ++ [fid]) bid) := by
            intro f hf
            refine chain'_snoc hinv ?_
            exact ⟨bid, hin, hf⟩
          cases hsub : wantGo g fuel (.wbuild st (stack ++ [fid]) bid) with
          | error e =>
            rw [hsub] at h
            cases h
            exact ih _ chain hinv2 hsub
          | ok v =>
            rw [hsub] at h
            cases h
    | .wbuild st stack bid =>
      rw [wantGo] at h
      split at h
      · cases h
      · cases hsub : wantGo g fuel (.wins st stack (buildOf g bid).orderingIns) with
        | error e =>
          rw [hsub] at h
          cases h
          exact ih (.wins st stack (buildOf g bid).orderingIns) chain
            (fun f hf => hinv f (Or.inl hf)) hsub
        | ok v =>
          rw [hsub] at h
          obtain ⟨st1, ready, junk⟩ := v
          dsimp only at h
          cases hsub2 : wantGo g fuel
              (.wvals (bsSet st1 bid (if ready then BState.ready else BState.want)) stack
                (buildOf g bid).validationIns) with
          | error e =>
            rw [hsub2] at h
            cases h
            exact ih (.wvals (bsSet st1 bid (if ready then BState.ready else BState.want)) stack
              (buildOf g bid).validationIns) chain (fun f hf => hinv f (Or.inr hf)) hsub2
          | ok v2 =>
            rw [hsub2] at h
            cases h
    | .wins st stack [] =>
      rw [wantGo] at h
      cases h
    | .wins st stack (fid :: rest) =>
      rw [wantGo] at h
      cases hsub : wantGo g fuel (.wfile st stack fid) with
      | error e =>
        rw [hsub] at h
        cases h
        exact ih (.wfile st stack fid) chain (hinv fid (by simp)) hsub
      | ok v =>
        rw [hsub] at h
        obtain ⟨st1, r, junk⟩ := v
        dsimp only at h
        cases hsub2 : wantGo g fuel (.wins st1 stack rest) with
        | error e =>
          rw [hsub2] at h
          cases h
          exact ih (.wins st1 stack rest) chain (fun f hf => hinv f (by simp [hf])) hsub2
        | ok v2 =>
          rw [hsub2] at h
          cases h
    | .wvals st stack [] =>
      rw [wantGo] at h
      cases h
    | .wvals st stack (fid :: rest) =>
      rw [wantGo] at h
      cases hsub : wantGo g fuel (.wfile st stack fid) with
      | error e =>
        rw [hsub] at h
        cases h
        exact ih (.wfile st stack fid) chain (hinv fid (by simp)) hsub
      | ok v =>
        rw [hsub] at h
        obtain ⟨st1, r, junk⟩ := v
        dsimp only at h
        cases hsub2 : wantGo g fuel (.wvals st1 stack rest) with
        | error e =>
          rw [hsub2] at h
          cases h
          exact ih (.wvals st1 stack rest) chain (fun f hf => hinv f (by simp [hf])) hsub2
        | ok v2 =>
          rw [hsub2] at h
          cases h

theorem no_input_no_cycle {g : NGraph} {fid : Nat}
    (hin : (fileOf g fid).input = none) : ¬ hasCycleFromO g fid := by
  rintro ⟨x, hr, hc⟩
  rcases Relation.ReflTransGen.cases_head hr with heq | ⟨y, hxy, _⟩
  · subst heq
    obtain ⟨y, ⟨b, hb, _⟩, _⟩ := Relation.TransGen.head'_iff.mp hc
    rw [hin] at hb
    cases hb
  · obtain ⟨b, hb, _⟩ := hxy
    rw [hin] at hb
    cases hb

theorem safe_of_safe_ins {g : NGraph} {fid bid : Nat}
    (hin : (fileOf g fid).input = some bid)
    (hsafe : ∀ f ∈ (buildOf g bid).orderingIns, ¬ hasCycleFromO g f) :
    ¬ hasCycleFromO g fid := by
  rintro ⟨x, hr, hc⟩
  rcases Relation.ReflTransGen.cases_head hr with heq | ⟨y, hxy, hyx⟩
  · subst heq
    obtain ⟨y, ⟨b, hb, hyin⟩, hyfid⟩ := Relation.TransGen.head'_iff.mp hc
    rw [hin] at hb
    cases hb
    exact hsafe y hyin ⟨fid, hyfid, hc⟩
  · obtain ⟨b, hb, hyin⟩ := hxy
    rw [hin] at hb
    cases hb
    exact hsafe y hyin ⟨x, hyx, hc⟩

theorem bsGet_set_ne {st : BStates} {b b2 : Nat} {s : BState} (h : b2 ≠ b) :
    bsGet (bsSet st b s) b2 = bsGet st b2 := by
  show (st.states.set b s).getD b2 .unneeded = st.states.getD b2 .unneeded
  rw [List.getD_eq_getElem?_getD, List.getElem?_set, if_neg (fun he => h he.symm),
    ← List.getD_eq_getElem?_getD]

theorem msInv_set {g : NGraph} {st : BStates} {bid : Nat} {s : BState}
    (hms : msInv g st)
    (hsafe : ∀ f ∈ (buildOf g bid).orderingIns, ¬ hasCycleFromO g f) :
    msInv g (bsSet st bid s) := by
  intro b2 hb2 f hf
  by_cases hbe : b2 = bid
  · subst hbe
    exact hsafe f hf
  · rw [bsGet_set_ne hbe] at hb2
    exact hms b2 hb2 f hf

/-- A successful walk marks only ordering-safe builds and certifies that the
walked file has no reachable ordering-dependency cycle. -/
theorem wantGo_safety (g : NGraph) :
    ∀ (fuel : Nat) (c : WCall) (st2 : BStates) (r : Bool) (s : BState),
      msInv g (wcallSt c) → wantGo g fuel c = .ok (st2, r, s) →
      msInv g st2 ∧ callPost g c := by
  intro fuel
  induction fuel with
  | zero =>
    intro c st2 r s _ h
    cases h
  | succ fuel ih =>
    intro c st2 r s hms h
    match c with
    | .wfile st stack fid =>
      rw [wantGo] at h
      cases hp : posOf fid stack with
      | some i =>
        rw [hp] at h
        cases h
      | none =>
        rw [hp] at h
        cases hin : (fileOf g fid).input with
        | none =>
          rw [hin] at h
          cases h
          exact ⟨hms, no_input_no_cycle hin⟩
        | some bid =>
          rw [hin] at h
          dsimp only at h
          cases hsub : wantGo g fuel (.wbuild st (stack ++ [fid]) bid) with
          | error e =>
            rw [hsub] at h
            cases h
          | ok v =>
            rw [hsub] at h
            obtain ⟨st1, r1, s1⟩ := v
            obtain ⟨hms1, hpost⟩ := ih (.wbuild st (stack ++ [fid]) bid) st1 r1 s1 hms hsub
            dsimp only at h
            cases h
            exact ⟨hms1, safe_of_safe_ins hin hpost⟩
    | .wbuild st stack bid =>
      rw [wantGo] at h
      split at h
      · rename_i hne
        cases h
        exact ⟨hms, hms bid hne⟩
      · rename_i hun
        cases hsub : wantGo g fuel (.wins st stack (buildOf g bid).orderingIns) with
        | error e =>
          rw [hsub] at h
          cases h
        | ok v =>
          rw [hsub] at h
          obtain ⟨st1, ready, j1⟩ := v
          dsimp only at h
          obtain ⟨hms1, hpost1⟩ := ih (.wins st stack (buildOf g bid).orderingIns)
            st1 ready j1 hms hsub
          cases hsub2 : wantGo g fuel
              (.wvals (bsSet st1 bid (if ready then BState.ready else BState.want)) stack
                (buildOf g bid).validationIns) with
          | error e =>
            rw [hsub2] at h
            cases h
          | ok v2 =>
            rw [hsub2] at h
            obtain ⟨st3, r3, j3⟩ := v2
            obtain ⟨hms3, _⟩ := ih
              (.wvals (bsSet st1 bid (if ready then BState.ready else BState.want)) stack
                (buildOf g bid).validationIns) st3 r3 j3 (msInv_set hms1 hpost1) hsub2
            dsimp only at h
            cases h
            exact ⟨hms3, hpost1⟩
    | .wins st stack [] =>
      rw [wantGo] at h
      cases h
      exact ⟨hms, by intro f hf; cases hf⟩
    | .wins st stack (fid :: rest) =>
      rw [wantGo] at h
      cases hsub : wantGo g fuel (.wfile st stack fid) with
      | error e =>
        rw [hsub] at h
        cases h
      | ok v =>
        rw [hsub] at h
        obtain ⟨st1, r1, j1⟩ := v
        dsimp only at h
        obtain ⟨hms1, hpost1⟩ := ih (.wfile st stack fid) st1 r1 j1 hms hsub
        cases hsub2 : wantGo g fuel (.wins st1 stack rest) with
        | error e =>
          rw [hsub2] at h
          cases h
        | ok v2 =>
          rw [hsub2] at h
          obtain ⟨st3, r3, j3⟩ := v2
          obtain ⟨hms3, hpost3⟩ := ih (.wins st1 stack rest) st3 r3 j3 hms1 hsub2
          dsimp only at h
          cases h
          refine ⟨hms3, ?_⟩
          intro f hf
          rcases List.mem_cons.mp hf with heq | hf2
          · subst heq
            exact hpost1
          · exact hpost3 f hf2
    | .wvals st stack [] =>
      rw [wantGo] at h
      cases h
      exact ⟨hms, trivial⟩
    | .wvals st stack (fid :: rest) =>
      rw [wantGo] at h
      cases hsub : wantGo g fuel (.wfile st stack fid) with
      | error e =>
        rw [hsub] at h
        cases h
      | ok v =>
        rw [hsub] at h
        obtain ⟨st1, r1, j1⟩ := v
        dsimp only at h
        obtain ⟨hms1, _⟩ := ih (.wfile st stack fid) st1 r1 j1 hms hsub
        cases hsub2 : wantGo g fuel (.wvals st1 stack rest) with
        | error e =>
          rw [hsub2] at h
          cases h
        | ok v2 =>
          rw [hsub2] at h
          obtain ⟨st3, r3, j3⟩ := v2
          obtain ⟨hms3, _⟩ := ih (.wvals st1 stack rest) st3 r3 j3 hms1 hsub2
          dsimp only at h
          cases h
          exact ⟨hms3, trivial⟩

/-- Fuel monotonicity: once the walk returns an answer that is not fuel
exhaustion, more fuel does not change it. -/
theorem wantGo_mono (g : NGraph) :
    ∀ (fuel : Nat) (c : WCall), wantGo g fuel c ≠ .error .fuel →
      wantGo g (fuel + 1) c = wantGo g fuel c := by
  intro fuel
  induction fuel with
  | zero =>
    intro c h
    exact absurd rfl h
  | succ fuel ih =>
    intro c h
    match c with
    | .wfile st stack fid =>
      cases hp : posOf fid stack with
      | some i =>
        conv_lhs => rw [wantGo]
        conv_rhs => rw [wantGo]
        rw [hp]
      | none =>
        cases hin : (fileOf g fid).input with
        | none =>
          conv_lhs => rw [wantGo]
          conv_rhs => rw [wantGo]
          rw [hp, hin]
        | some bid =>
          have hsub : wantGo g fuel (.wbuild st (stack ++ [fid]) bid) ≠ .error .fuel := by
            intro hcon
            apply h
            conv_lhs => rw [wantGo]
            rw [hp, hin]
            dsimp only
            rw [hcon]
          conv_lhs => rw [wantGo]
          conv_rhs => rw [wantGo]
          rw [hp, hin]
          dsimp only
          rw [ih (.wbuild st (stack ++ [fid]) bid) hsub]
    | .wbuild st stack bid =>
      by_cases hs : bsGet st bid ≠ .unneeded
      · conv_lhs => rw [wantGo]
        conv_rhs => rw [wantGo]
        dsimp only
        simp only [if_pos hs]
      · have hsub1 : wantGo g fuel (.wins st stack (buildOf g bid).orderingIns)
            ≠ .error .fuel := by
          intro hcon
          apply h
          conv_lhs => rw [wantGo]
          dsimp only
          rw [if_neg hs, hcon]
        conv_lhs => rw [wantGo]
        conv_rhs => rw [wantGo]
        dsimp only
        simp only [if_neg hs]
        rw [ih (.wins st stack (buildOf g bid).orderingIns) hsub1]
        cases hv1 : wantGo g fuel (.wins st stack (buildOf g bid).orderingIns) with
        | error e => rfl
        | ok v =>
          obtain ⟨st1, ready, j1⟩ := v
          dsimp only
          have hsub2 : wantGo g fuel
              (.wvals (bsSet st1 bid (if ready then BState.ready else BState.want)) stack
                (buildOf g bid).validationIns) ≠ .error .fuel := by
            intro hcon
            apply h
            conv_lhs => rw [wantGo]
            dsimp only
            rw [if_neg hs, hv1]
            dsimp only
            rw [hcon]
          rw [ih _ hsub2]
    | .wins st stack [] =>
      conv_lhs => rw [wantGo]
      conv_rhs => rw [wantGo]
    | .wins st stack (fid :: rest) =>
      have hsub1 : wantGo g fuel (.wfile st stack fid) ≠ .error .fuel := by
        intro hcon
        apply h
        conv_lhs => rw [wantGo]
        rw [hcon]
      conv_lhs => rw [wantGo]
      conv_rhs => rw [wantGo]
      rw [ih (.wfile st stack fid) hsub1]
      cases hv1 : wantGo g fuel (.wfile st stack fid) with
      | error e => rfl
      | ok v =>
        obtain ⟨st1, r1, j1⟩ := v
        dsimp only
        have hsub2 : wantGo g fuel (.wins st1 stack rest) ≠ .error .fuel := by
          intro hcon
          apply h
          conv_lhs => rw [wantGo]
          rw [hv1]
          dsimp only
          rw [hcon]
        rw [ih (.wins st1 stack rest) hsub2]
    | .wvals st stack [] =>
      conv_lhs => rw [wantGo]
      conv_rhs => rw [wantGo]
    | .wvals st stack (fid :: rest) =>
      have hsub1 : wantGo g fuel (.wfile st stack fid) ≠ .error .fuel := by
        intro hcon
        apply h
        conv_lhs => rw [wantGo]
        rw [hcon]
      conv_lhs => rw [wantGo]
      conv_rhs => rw [wantGo]
      rw [ih (.wfile st stack fid) hsub1]
      cases hv1 : wantGo g fuel (.wfile st stack fid) with
      | error e => rfl
      | ok v =>
        obtain ⟨st1, r1, j1⟩ := v
        dsimp only
        have hsub2 : wantGo g fuel (.wvals st1 stack rest) ≠ .error .fuel := by
          intro hcon
          apply h
          conv_lhs => rw [wantGo]
          rw [hv1]
          dsimp only
          rw [hcon]
        rw [ih (.wvals st1 stack rest) hsub2]

theorem wantGo_mono_le (g : NGraph) {fuel fuel2 : Nat} (hle : fuel ≤ fuel2) (c : WCall)
    (h : wantGo g fuel c ≠ .error .fuel) : wantGo g fuel2 c = wantGo g fuel c := by
  induction fuel2, hle using Nat.le_induction with
  | base => rfl
  | succ fuel2 hle ih =>
    rw [← ih]
    apply wantGo_mono
    rw [ih]
    exact h

theorem nodup_bounded_length {l : List Nat} {n : Nat}
    (hd : l.Nodup) (hb : ∀ x ∈ l, x < n) : l.length ≤ n := by
  classical
  have h1 : l.toFinset.card = l.length := List.toFinset_card_of_nodup hd
  have h2 : l.toFinset ⊆ Finset.range n := by
    intro x hx
    rw [List.mem_toFinset] at hx
    exact Finset.mem_range.mpr (hb x hx)
  have h3 := Finset.card_le_card h2
  rw [h1, Finset.card_range] at h3
  exact h3

theorem input_some_lt {g : NGraph} {fid bid : Nat}
    (h : (fileOf g fid).input = some bid) : fid < g.files.length := by
  by_contra hge
  unfold fileOf at h
  rw [List.getD_eq_getElem?_getD, List.getElem?_eq_none (by omega)] at h
  cases h

/-- Membership bound for the fold computing `maxIns`. -/
theorem foldr_max_le {l : List NBuild} {b : NBuild} (h : b ∈ l) :
    max b.orderingIns.length b.validationIns.length ≤
      l.foldr (fun b2 a => max (max b2.orderingIns.length b2.validationIns.length) a) 0 := by
  induction l with
  | nil => cases h
  | cons x t ih =>
    rcases List.mem_cons.mp h with he | hm
    · subst he
      exact le_max_left _ _
    · exact le_trans (ih hm) (le_max_right _ _)

/-- Every build's two input lists are no longer than `maxIns`. -/
theorem maxIns_bound (g : NGraph) (bid : Nat) :
    (buildOf g bid).orderingIns.length ≤ maxIns g ∧
    (buildOf g bid).validationIns.length ≤ maxIns g := by
  unfold buildOf maxIns
  rw [List.getD_eq_getElem?_getD]
  cases hg : g.builds[bid]? with
  | none => simp
  | some b =>
    have hmem : b ∈ g.builds := by
      obtain ⟨hlt, hb⟩ := List.getElem?_eq_some.mp hg
      exact hb ▸ List.getElem_mem hlt
    have hb := foldr_max_le hmem
    simp only [Option.getD_some]
    omega

/-- Totality of the ordering-input loop from totality of the file walk at the
same stack. -/
theorem wins_total (g : NGraph) {W : Nat} {stack : List Nat}
    (hW : ∀ st fid, wantGo g W (.wfile st stack fid) ≠ .error .fuel) :
    ∀ (l : List Nat) (st : BStates),
      wantGo g (W + l.length + 1) (.wins st stack l) ≠ .error .fuel := by
  intro l
  induction l with
  | nil =>
    intro st h
    rw [wantGo] at h
    cases h
  | cons fid rest ih =>
    intro st h
    rw [wantGo] at h
    have hf := hW st fid
    have hfe : wantGo g (W + (fid :: rest).length) (.wfile st stack fid)
        = wantGo g W (.wfile st stack fid) :=
      wantGo_mono_le g (Nat.le_add_right _ _) _ hf
    rw [hfe] at h
    cases hv : wantGo g W (.wfile st stack fid) with
    | error e =>
      rw [hv] at h
      dsimp only at h
      cases h
      exact hf hv
    | ok v =>
      obtain ⟨st1, r, s⟩ := v
      rw [hv] at h
      dsimp only at h
      have hrest := ih st1
      have hre : wantGo g (W + (fid :: rest).length) (.wins st1 stack rest)
          = wantGo g (W + rest.length + 1) (.wins st1 stack rest) :=
        wantGo_mono_le g (by simp [List.length_cons]; omega) _ hrest
      rw [hre] at h
      cases hv2 : wantGo g (W + rest.length + 1) (.wins st1 stack rest) with
      | error e =>
        rw [hv2] at h
        dsimp only at h
        cases h
        exact hrest hv2
      | ok v2 =>
        obtain ⟨st2, r2, s2⟩ := v2
        rw [hv2] at h
        dsimp only at h
        cases h

/-- Totality of the validation-input loop from totality of the file walk at
the same stack. -/
theorem wvals_total (g : NGraph) {W : Nat} {stack : List Nat}
    (hW : ∀ st fid, wantGo g W (.wfile st stack fid) ≠ .error .fuel) :
    ∀ (l : List Nat) (st : BStates),
      wantGo g (W + l.length + 1) (.wvals st stack l) ≠ .error .fuel := by
  intro l
  induction l with
  | nil =>
    intro st h
    rw [wantGo] at h
    cases h
  | cons fid rest ih =>
    intro st h
    rw [wantGo] at h
    have hf := hW st fid
    have hfe : wantGo g (W + (fid :: rest).length) (.wfile st stack fid)
        = wantGo g W (.wfile st stack fid) :=
      wantGo_mono_le g (Nat.le_add_right _ _) _ hf
    rw [hfe] at h
    cases hv : wantGo g W (.wfile st stack fid) with
    | error e =>
      rw [hv] at h
      dsimp only at h
      cases h
      exact hf hv
    | ok v =>
      obtain ⟨st1, r, s⟩ := v
      rw [hv] at h
      dsimp only at h
      have hrest := ih st1
      have hre : wantGo g (W + (fid :: rest).length) (.wvals st1 stack rest)
          = wantGo g (W + rest.length + 1) (.wvals st1 stack rest) :=
        wantGo_mono_le g (by simp [List.length_cons]; omega) _ hrest
      rw [hre] at h
      cases hv2 : wantGo g (W + rest.length + 1) (.wvals st1 stack rest) with
      | error e =>
        rw [hv2] at h
        dsimp only at h
        cases h
        exact hrest hv2
      | ok v2 =>
        obtain ⟨st2, r2, s2⟩ := v2
        rw [hv2] at h
        dsimp only at h
        cases h

/-- Totality of the build walk from totality of the file walk at the same
stack. -/
theorem wbuild_total (g : NGraph) {W : Nat} {stack : List Nat}
    (hW : ∀ st fid, wantGo g W (.wfile st stack fid) ≠ .error .fuel) :
    ∀ (st : BStates) (bid : Nat),
      wantGo g (W + maxIns g + 1 + 1) (.wbuild st stack bid) ≠ .error .fuel := by
  intro st bid h
  rw [wantGo] at h
  dsimp only at h
  by_cases hs : bsGet st bid ≠ .unneeded
  · rw [if_pos hs] at h
    cases h
  · rw [if_neg hs] at h
    have h1 := wins_total g hW (buildOf g bid).orderingIns st
    have he1 : wantGo g (W + maxIns g + 1) (.wins st stack (buildOf g bid).orderingIns)
        = wantGo g (W + (buildOf g bid).orderingIns.length + 1)
            (.wins st stack (buildOf g bid).orderingIns) :=
      wantGo_mono_le g (by have := (maxIns_bound g bid).1; omega) _ h1
    rw [he1] at h
    cases hv1 : wantGo g (W + (buildOf g bid).orderingIns.length + 1)
        (.wins st stack (buildOf g bid).orderingIns) with
    | error e =>
      rw [hv1] at h
      dsimp only at h
      cases h
      exact h1 hv1
    | ok v =>
      obtain ⟨st1, ready, s⟩ := v
      rw [hv1] at h
      dsimp only at h
      have h2 := wvals_total g hW (buildOf g bid).validationIns
        (bsSet st1 bid (if ready then BState.ready else BState.want))
      have he2 : wantGo g (W + maxIns g + 1)
          (.wvals (bsSet st1 bid (if ready then BState.ready else BState.want)) stack
            (buildOf g bid).validationIns)
          = wantGo g (W + (buildOf g bid).validationIns.length + 1)
              (.wvals (bsSet st1 bid (if ready then BState.ready else BState.want)) stack
                (buildOf g bid).validationIns) :=
        wantGo_mono_le g (by have := (maxIns_bound g bid).2; omega) _ h2
      rw [he2] at h
      cases hv2 : wantGo g (W + (buildOf g bid).validationIns.length + 1)
          (.wvals (bsSet st1 bid (if ready then BState.ready else BState.want)) stack
            (buildOf g bid).validationIns) with
      | error e =>
        rw [hv2] at h
        dsimp only at h
        cases h
        exact h2 hv2
      | ok v2 =>
        obtain ⟨st2, r2, s2⟩ := v2
        rw [hv2] at h
        dsimp only at h
        cases h

/-- Totality of the file walk: `wantFuel g k` steps suffice whenever the
stack, kept duplicate-free by the cycle check, can grow by at most `k` more
valid file ids. -/
theorem wfile_total (g : NGraph) :
    ∀ (k : Nat) (stack : List Nat), stackOk g stack →
      g.files.length ≤ stack.length + k →
      ∀ (st : BStates) (fid : Nat),
        wantGo g (wantFuel g k) (.wfile st stack fid) ≠ .error .fuel := by
  intro k
  induction k with
  | zero =>
    intro stack hok hlen st fid h
    have h1 : wantGo g (0 + 1) (.wfile st stack fid) = .error .fuel := h
    rw [wantGo] at h1
    cases hp : posOf fid stack with
    | some i =>
      rw [hp] at h1
      dsimp only at h1
      cases h1
    | none =>
      cases hin : (fileOf g fid).input with
      | none =>
        rw [hp, hin] at h1
        dsimp only at h1
        cases h1
      | some bid =>
        have hnm : fid ∉ stack := posOf_none.mp hp
        have hlt : fid < g.files.length := input_some_lt hin
        have hnd : (stack ++ [fid]).Nodup := by
          rw [List.nodup_append]
          exact ⟨hok.1, List.nodup_singleton fid,
            fun x hx hf => hnm ((List.mem_singleton.mp hf) ▸ hx)⟩
        have hbd : ∀ x ∈ stack ++ [fid], x < g.files.length := by
          intro x hx
          rcases List.mem_append.mp hx with hx | hx
          · exact hok.2 x hx
          · exact (List.mem_singleton.mp hx) ▸ hlt
        have := nodup_bounded_length hnd hbd
        rw [List.length_append, List.length_singleton] at this
        omega
  | succ k ih =>
    intro stack hok hlen st fid h
    rw [wantFuel] at h
    rw [wantGo] at h
    cases hp : posOf fid stack with
    | some i =>
      rw [hp] at h
      dsimp only at h
      cases h
    | none =>
      cases hin : (fileOf g fid).input with
      | none =>
        rw [hp, hin] at h
        dsimp only at h
        cases h
      | some bid =>
        rw [hp, hin] at h
        dsimp only at h
        have hnm : fid ∉ stack := posOf_none.mp hp
        have hlt : fid < g.files.length := input_some_lt hin
        have hok2 : stackOk g (stack ++ [fid]) := by
          refine ⟨?_, ?_⟩
          · rw [List.nodup_append]
            exact ⟨hok.1, List.nodup_singleton fid,
              fun x hx hf => hnm ((List.mem_singleton.mp hf) ▸ hx)⟩
          · intro x hx
            rcases List.mem_append.mp hx with hx | hx
            · exact hok.2 x hx
            · exact (List.mem_singleton.mp hx) ▸ hlt
        have hlen2 : g.files.length ≤ (stack ++ [fid]).length + k := by
          rw [List.length_append, List.length_singleton]
          omega
        have hb := wbuild_total g
          (fun st2 fid2 => ih (stack ++ [fid]) hok2 hlen2 st2 fid2) st bid
        cases hv : wantGo g (wantFuel g k + maxIns g + 1 + 1)
            (.wbuild st (stack ++ [fid]) bid) with
        | error e =>
          rw [hv] at h
          dsimp only at h
          cases h
          exact hb hv
        | ok v =>
          obtain ⟨st1, r, s⟩ := v
          rw [hv] at h
          dsimp only at h
          cases h

/-- A chain ending at `b` yields transitive reachability. -/
theorem chainLast_transGen {R : Nat → Nat → Prop} :
    ∀ (l : List Nat) (a b : Nat), List.Chain R a l → l.getLast? = some b →
      Relation.TransGen R a b := by
  intro l
  induction l with
  | nil =>
    intro a b _ hl
    cases hl
  | cons c t ih =>
    intro a b hc hl
    obtain ⟨hac, hct⟩ := List.chain_cons.mp hc
    cases t with
    | nil =>
      have hbc : c = b := by
        simpa using hl
      exact hbc ▸ Relation.TransGen.single hac
    | cons d u =>
      rw [List.getLast?_cons_cons] at hl
      exact Relation.TransGen.head hac (ih c b hct hl)

/-- A genuine cycle chain witnesses a transitive dependency cycle. -/
theorem genuineCycle_transGen {g : NGraph} {chain : List Nat}
    (h : genuineCycle g chain) : ∃ x, Relation.TransGen (depU g) x x := by
  obtain ⟨hlen, hhl, hch⟩ := h
  cases chain with
  | nil => simp at hlen
  | cons a l =>
    cases l with
    | nil => simp at hlen
    | cons b t =>
      have hh : (a :: b :: t).head? = some a := rfl
      rw [hhl, List.getLast?_cons_cons] at hh
      exact ⟨a, chainLast_transGen (b :: t) a a hch hh⟩

/-- Every per-build state starts out `Unneeded`. -/
theorem init_bsGet (g : NGraph) (bid : Nat) : bsGet (initStates g) bid = .unneeded := by
  show (List.replicate g.builds.length BState.unneeded).getD bid .unneeded = .unneeded
  rw [List.getD_eq_getElem?_getD, List.getElem?_replicate]
  split <;> rfl

/-- The marked-safety invariant holds vacuously at the initial states. -/
theorem init_msInv (g : NGraph) : msInv g (initStates g) := by
  intro bid hb
  exact absurd (init_bsGet g bid) hb

/-- Errors of `want_file` come straight from the walk. -/
theorem wantFile_error {g : NGraph} {fuel : Nat} {st : BStates} {stack : List Nat}
    {fid : Nat} {e : WantErr} (h : wantFile g fuel st stack fid = .error e) :
    wantGo g fuel (.wfile st stack fid) = .error e := by
  unfold wantFile at h
  cases hv : wantGo g fuel (.wfile st stack fid) with
  | error e2 =>
    rw [hv] at h
    dsimp only at h
    cases h
    rfl
  | ok v =>
    obtain ⟨st1, r, s⟩ := v
    rw [hv] at h
    dsimp only at h
    cases h

/-- C9.  Cycle detection of `BuildStates::want_file` (run as the scheduler
does, on the initial states with an empty visitation stack): (1) every cycle
error the walk reports carries a chain that is a genuine closed dependency
cycle of the graph — at least two entries, consecutive entries joined by
dependency edges, first and last entry equal — so the rendered message names
the full cycle; (2) when a dependency cycle is reachable from the wanted
file along ordering edges, the walk, given the sufficient fuel
`wantFuel g g.files.length`, rejects the request with exactly such a cycle
error; (3) on graphs without dependency cycles the walk never reports a
cycle error at any fuel. -/
theorem want_file_cycle_detection (g : NGraph) (fid : Nat) :
    (∀ fuel chain, wantFile g fuel (initStates g) [] fid = .error (.cycle chain) →
        genuineCycle g chain) ∧
    (hasCycleFromO g fid →
      ∃ chain, wantFile g (wantFuel g g.files.length) (initStates g) [] fid =
          .error (.cycle chain) ∧ genuineCycle g chain) ∧
    (acyclicU g →
      ∀ fuel chain, wantFile g fuel (initStates g) [] fid ≠ .error (.cycle chain)) := by
  have hsound : ∀ fuel chain,
      wantFile g fuel (initStates g) [] fid = .error (.cycle chain) →
        genuineCycle g chain := by
    intro fuel chain h
    have hg := wantFile_error h
    refine wantGo_cycle_sound g fuel (.wfile (initStates g) [] fid) chain ?_ hg
    show List.Chain' (depU g) ([] ++ [fid])
    simp
  refine ⟨hsound, ?_, ?_⟩
  · intro hcyc
    have htot : wantGo g (wantFuel g g.files.length) (.wfile (initStates g) [] fid)
        ≠ .error .fuel :=
      wfile_total g g.files.length [] ⟨List.nodup_nil, by simp⟩ (by simp)
        (initStates g) fid
    cases hv : wantGo g (wantFuel g g.files.length) (.wfile (initStates g) [] fid) with
    | ok v =>
      obtain ⟨st2, r, s⟩ := v
      have hsafe := wantGo_safety g _ (.wfile (initStates g) [] fid) st2 r s
        (init_msInv g) hv
      exact absurd hcyc hsafe.2
    | error e =>
      cases e with
      | fuel => exact absurd hv htot
      | cycle chain =>
        have hwf : wantFile g (wantFuel g g.files.length) (initStates g) [] fid =
            .error (.cycle chain) := by
          unfold wantFile
          rw [hv]
        exact ⟨chain, hwf, hsound _ chain hwf⟩
  · intro hac fuel chain h
    obtain ⟨x, hx⟩ := genuineCycle_transGen (hsound fuel chain h)
    exact hac x hx

/-- C9, witness: on the two-file cycle graph, `want_file(A)` with fuel 10
reports the chain `A, B, A`; the theorem certifies it genuine, and the
rendered message names the full cycle. -/
theorem want_file_cycle_detection_witness :
    wantFile cycleGraph 10 (initStates cycleGraph) [] 0 = .error (.cycle [0, 1, 0]) ∧
    genuineCycle cycleGraph [0, 1, 0] ∧
    renderCycleErr cycleGraph [0, 1, 0] = "dependency cycle: A -> B -> A" :=
  ⟨rfl, (want_file_cycle_detection cycleGraph 0).1 10 [0, 1, 0] rfl, rfl⟩

end NixNinja
